import Mathlib

/-!
Verification of the word-search puzzle generation engine
(`src/utils/wordSearch.ts`, current variant with injected randomness;
the older variant's `findWordOccurrences` grid scanner is also embedded
for the occurrence-count properties).

Modelling conventions:
* JS numbers are modelled as exact rationals (`ℚ`); grid indices as `ℤ`.
* `splitGraphemes` is modelled by its code-point fallback branch
  (`Array.from(text)`), which agrees with the `Intl.Segmenter` branch on
  the ASCII inputs used in the concrete theorems below.
* A `RandomGenerator` closure is modelled as a stream `ℕ → ℚ` of draws
  together with an explicitly threaded counter: each `random()` call
  reads the stream at the counter and increments it.
* `[...allDirections].sort(() => random() - 0.5)` uses an inconsistent
  comparator, whose result ECMAScript leaves implementation-defined.  It
  is modelled by an oracle parameter `Shuffle`; theorems either quantify
  over oracles returning sublists of their input (every conforming host
  returns a permutation, hence a sublist up to order) or instantiate the
  oracle with the identity shuffle for concrete runs.
* A JS `throw` is modelled with `Except`, the error carrying the message
  and the draw counter at the time of the throw.
-/

namespace WordSearch

/-- Grapheme segmentation.  Modelled by the source's fallback branch
`Array.from(text)` (one grapheme per code point); the `Intl.Segmenter`
branch agrees with this on ASCII text. -/
def splitGraphemes (text : String) : List String :=
  text.toList.map (fun c => String.mk [c])

def countGraphemes (text : String) : ℕ :=
  (splitGraphemes text).length

structure Position where
  row : ℤ
  col : ℤ
deriving DecidableEq

structure Direction where
  dRow : ℤ
  dCol : ℤ
  isBackward : Bool
deriving DecidableEq

structure WordPosition where
  word : String
  positions : List Position
deriving DecidableEq

abbrev Grid := List (List String)

/-- The stream of values produced by a `RandomGenerator`; the n-th call
to `random()` returns the value at index n. -/
abbrev RStream := ℕ → ℚ

/-- `getDirections` from the source: 4 forward rays, plus their
backward-order variants when backwards play is allowed. -/
def getDirections (allowBackwards : Bool) : List Direction :=
  let baseDirections : List Direction :=
    [⟨0, 1, false⟩, ⟨1, 0, false⟩, ⟨1, 1, false⟩, ⟨-1, 1, false⟩]
  if allowBackwards then
    baseDirections ++
      [⟨0, 1, true⟩, ⟨1, 0, true⟩, ⟨1, 1, true⟩, ⟨-1, 1, true⟩]
  else
    baseDirections

/-- Cell read `grid[row][col]`.  Out-of-range reads yield the empty
sentinel; the source only reads cells after an explicit bounds check or
from in-range loop counters, where the two semantics agree. -/
def gridGet (g : Grid) (row col : ℤ) : String :=
  if 0 ≤ row ∧ 0 ≤ col then (g.getD row.toNat []).getD col.toNat "" else ""

/-- Cell write `grid[row][col] = v` (functional).  Out-of-range writes
are dropped; the source only writes cells previously validated to be in
bounds. -/
def gridSet (g : Grid) (row col : ℤ) (v : String) : Grid :=
  if 0 ≤ row ∧ 0 ≤ col then
    g.set row.toNat ((g.getD row.toNat []).set col.toNat v)
  else g

/-- Both coordinates inside `[0, gridSize)`, with `gridSize` taken as
`grid.length` exactly as the source's bounds checks do. -/
def inBounds (g : Grid) (row col : ℤ) : Prop :=
  0 ≤ row ∧ row < (g.length : ℤ) ∧ 0 ≤ col ∧ col < (g.length : ℤ)

instance (g : Grid) (row col : ℤ) : Decidable (inBounds g row col) := by
  unfold inBounds; infer_instance

/-- All rows have the grid's own length (the engine only ever builds
such grids). -/
def SquareGrid (g : Grid) : Prop :=
  ∀ rowL ∈ g, rowL.length = g.length

instance (g : Grid) : Decidable (SquareGrid g) := by
  unfold SquareGrid; infer_instance

def initializeGrid (size : ℕ) : Grid :=
  List.replicate size (List.replicate size "")

/-- The bounds-and-compatibility loop of `canPlaceWordAt`, indexed by
the running offset `i`. -/
def checkCells (g : Grid) (row col dRow dCol : ℤ) : List String → ℕ → Bool
  | [], _ => true
  | ch :: rest, i =>
    let currentRow := row + dRow * (i : ℤ)
    let currentCol := col + dCol * (i : ℤ)
    if currentRow < 0 ∨ (g.length : ℤ) ≤ currentRow ∨
        currentCol < 0 ∨ (g.length : ℤ) ≤ currentCol then
      false
    else if gridGet g currentRow currentCol ≠ "" ∧
        gridGet g currentRow currentCol ≠ ch then
      false
    else
      checkCells g row col dRow dCol rest (i + 1)

/-- `canPlaceWordAt` from the source. -/
def canPlaceWordAt (word : String) (grid : Grid) (pos : Position)
    (direction : Direction) : Bool :=
  let chars := splitGraphemes word
  let wordChars := if direction.isBackward then chars.reverse else chars
  checkCells grid pos.row pos.col direction.dRow direction.dCol wordChars 0

/-- The write loop of `placeWord`, indexed by the running offset `i`;
returns the updated grid and the written coordinates in write order. -/
def placeCells (row col dRow dCol : ℤ) : List String → Grid → ℕ → Grid × List Position
  | [], g, _ => (g, [])
  | ch :: rest, g, i =>
    let currentRow := row + dRow * (i : ℤ)
    let currentCol := col + dCol * (i : ℤ)
    let g1 := gridSet g currentRow currentCol ch
    let res := placeCells row col dRow dCol rest g1 (i + 1)
    (res.1, ⟨currentRow, currentCol⟩ :: res.2)

/-- `placeWord` from the source (functional: returns the mutated grid
together with the recorded positions). -/
def placeWord (word : String) (grid : Grid) (pos : Position)
    (direction : Direction) : Grid × List Position :=
  let chars := splitGraphemes word
  let wordChars := if direction.isBackward then chars.reverse else chars
  placeCells pos.row pos.col direction.dRow direction.dCol wordChars grid 0

/-- The grapheme sequence actually written: reversed when `isBackward`
(the `wordChars` local of `canPlaceWordAt` and `placeWord`). -/
def wordCharsOf (word : String) (direction : Direction) : List String :=
  if direction.isBackward then (splitGraphemes word).reverse else splitGraphemes word

/-- Row and column count both equal to `n`. -/
def GridDims (g : Grid) (n : ℕ) : Prop :=
  g.length = n ∧ ∀ rowL ∈ g, rowL.length = n

/-- The cell targeted by the j-th grapheme of a placement. -/
def cellAt (row col dRow dCol : ℤ) (j : ℕ) : Position :=
  ⟨row + dRow * (j : ℤ), col + dCol * (j : ℤ)⟩

/-- Rational multiplication, written so the kernel can evaluate it
(provably equal to `*`, see `qMul_eq`). -/
def qMul (a b : ℚ) : ℚ := mkRat (a.num * b.num) (a.den * b.den)

/-- Rational addition in kernel-computable form (see `qAdd_eq`). -/
def qAdd (a b : ℚ) : ℚ :=
  mkRat (a.num * (b.den : ℤ) + b.num * (a.den : ℤ)) (a.den * b.den)

/-- Rational subtraction in kernel-computable form (see `qSub_eq`). -/
def qSub (a b : ℚ) : ℚ :=
  mkRat (a.num * (b.den : ℤ) - b.num * (a.den : ℤ)) (a.den * b.den)

/-- Rational division in kernel-computable form (see `qDiv_eq`). -/
def qDiv (a b : ℚ) : ℚ := Rat.divInt (a.num * (b.den : ℤ)) ((a.den : ℤ) * b.num)

/-- `Math.floor` on an exact rational, in kernel-computable form
(see `qFloor_eq`). -/
def qFloor (q : ℚ) : ℤ := Int.fdiv q.num (q.den : ℤ)

/-- The integer range `[lo, hi]` traversed by a JS `for` loop
(`for (let x = lo; x <= hi; x++)`). -/
def intRange (lo hi : ℤ) : List ℤ :=
  (List.range (hi + 1 - lo).toNat).map (fun i : ℕ => lo + (i : ℤ))

/-- JS array indexing `l[i]`: `undefined` (here `none`) when out of
range, including negative indices. -/
def jsIndex (l : List α) (i : ℤ) : Option α :=
  if i < 0 then none else l[i.toNat]?

/-- Smallest legal anchor row: `Math.max(0, dRow < 0 ? wordLength - 1 : 0)`. -/
def rowMinOf (wordLength : ℤ) (d : Direction) : ℤ :=
  max 0 (if d.dRow < 0 then wordLength - 1 else 0)

/-- Largest legal anchor row:
`Math.min(gridSize - 1, dRow > 0 ? gridSize - wordLength : gridSize - 1)`. -/
def rowMaxOf (gridSize wordLength : ℤ) (d : Direction) : ℤ :=
  min (gridSize - 1) (if 0 < d.dRow then gridSize - wordLength else gridSize - 1)

/-- Smallest legal anchor column, as `rowMinOf` with `dCol`. -/
def colMinOf (wordLength : ℤ) (d : Direction) : ℤ :=
  max 0 (if d.dCol < 0 then wordLength - 1 else 0)

/-- Largest legal anchor column, as `rowMaxOf` with `dCol`. -/
def colMaxOf (gridSize wordLength : ℤ) (d : Direction) : ℤ :=
  min (gridSize - 1) (if 0 < d.dCol then gridSize - wordLength else gridSize - 1)

/-- The candidate list built by `findValidWordPosition`: row-major
enumeration of the legal anchor box, retaining validated anchors. -/
def candidatePositions (word : String) (grid : Grid) (direction : Direction) :
    List Position :=
  let gridSize : ℤ := (grid.length : ℤ)
  let wordLength : ℤ := ((splitGraphemes word).length : ℤ)
  (intRange (rowMinOf wordLength direction) (rowMaxOf gridSize wordLength direction)).flatMap
    (fun row =>
      (intRange (colMinOf wordLength direction)
          (colMaxOf gridSize wordLength direction)).filterMap
        (fun col =>
          if canPlaceWordAt word grid ⟨row, col⟩ direction then some (⟨row, col⟩ : Position)
          else none))

/-- `findValidWordPosition` from the source.  The random source is the
draw stream plus the current counter; exactly one draw is consumed, and
only when the candidate list is non-empty. -/
def findValidWordPosition (word : String) (grid : Grid) (direction : Direction)
    (r : RStream) (k : ℕ) : Option Position × ℕ :=
  let gridSize : ℤ := (grid.length : ℤ)
  let wordLength : ℤ := ((splitGraphemes word).length : ℤ)
  if rowMaxOf gridSize wordLength direction < rowMinOf wordLength direction ∨
      colMaxOf gridSize wordLength direction < colMinOf wordLength direction then
    (none, k)
  else
    let positions := candidatePositions word grid direction
    if positions.isEmpty then (none, k)
    else (jsIndex positions (qFloor (qMul (r k) (positions.length : ℚ))), k + 1)

/-- One `{char, cumulativeFreq}` entry of the fill distribution. -/
structure DistEntry where
  char : String
  cumulativeFreq : ℚ
deriving DecidableEq

/-- Keys of a JS object built by insertion: first-occurrence order. -/
def firstOccurrences (l : List String) : List String :=
  l.foldl (fun acc c => if c ∈ acc then acc else acc ++ [c]) []

/-- Insertion step of a stable descending sort by a numeric key. -/
def insertDesc (key : α → ℕ) (a : α) : List α → List α
  | [] => [a]
  | b :: l => if key b ≤ key a then a :: b :: l else b :: insertDesc key a l

/-- Stable descending sort by a numeric key.  Models the JS
`sort((a, b) => key(b) - key(a))`, whose comparator is a consistent
total preorder: ECMAScript then requires the stable descending order,
which is unique. -/
def sortDesc (key : α → ℕ) : List α → List α
  | [] => []
  | a :: l => insertDesc key a (sortDesc key l)

/-- All graphemes of all words, in order (the iteration building the JS
`charFrequency` object and `totalCharCount`; the object is modelled by
occurrence counts over this list, its keys by first-occurrence order). -/
def graphemesOf (words : List String) : List String :=
  words.flatMap splitGraphemes

/-- `sortedChars`: the frequency object's keys sorted by descending
count (the JS comparator `charFrequency[b] - charFrequency[a]` is a
consistent total preorder, so the conforming stable sort result is
unique). -/
def sortedCharsOf (words : List String) : List String :=
  sortDesc (fun c => (graphemesOf words).count c) (firstOccurrences (graphemesOf words))

/-- `interpolationFactor = attemptNumber / (maxAttempts - 1)`. -/
def interpFactor (attemptNumber maxAttempts : ℕ) : ℚ :=
  qDiv (attemptNumber : ℚ) (qSub (maxAttempts : ℚ) 1)

/-- `interpolatedFreq` for the entry `ic = (index, char)` of the sorted
key list: the frequency of `char` blended with the frequency of the
mirror-ranked key, both normalized by the total count. -/
def interpFreqOf (words : List String) (attemptNumber maxAttempts : ℕ)
    (ic : ℕ × String) : ℚ :=
  let graphemes := graphemesOf words
  let totalCharCount : ℚ := (graphemes.length : ℚ)
  let sortedChars := sortedCharsOf words
  let originalFreq := qDiv (graphemes.count ic.2 : ℚ) totalCharCount
  let reversedFreq :=
    qDiv (graphemes.count (sortedChars.getD (sortedChars.length - 1 - ic.1) "") : ℚ)
      totalCharCount
  qAdd (qMul originalFreq (qSub 1 (interpFactor attemptNumber maxAttempts)))
    (qMul reversedFreq (interpFactor attemptNumber maxAttempts))

/-- `calculateCharacterDistribution` from the source: fold over the
sorted keys accumulating the running cumulative sum and pushing one
entry per key. -/
def calculateCharacterDistribution (words : List String)
    (attemptNumber maxAttempts : ℕ) : List DistEntry :=
  ((sortedCharsOf words).enum.foldl
    (fun (acc : ℚ × List DistEntry) (ic : ℕ × String) =>
      (qAdd acc.1 (interpFreqOf words attemptNumber maxAttempts ic),
        acc.2 ++ [⟨ic.2, qAdd acc.1 (interpFreqOf words attemptNumber maxAttempts ic)⟩]))
    ((0 : ℚ), ([] : List DistEntry))).2

/-- The output list of a fold that threads a rational accumulator with
`f` while pushing one `g`-entry per element (proof device for the
distribution fold). -/
def scanOut (f : ℚ → α → ℚ) (g : ℚ → α → β) : ℚ → List α → List β
  | _, [] => []
  | c, x :: xs => g c x :: scanOut f g (f c x) xs

/-- `selectCharFromDistribution` from the source: draw one value, return
the first entry whose cumulative frequency is at least the draw, else
fall back to the last entry; `none` models the TypeError raised on an
empty distribution (`distribution[length - 1].char` of `undefined`). -/
def selectCharFromDistribution (distribution : List DistEntry) (r : RStream) (k : ℕ) :
    Option String × ℕ :=
  let randomValue := r k
  match distribution.find? (fun e => randomValue ≤ e.cumulativeFreq) with
  | some e => (some e.char, k + 1)
  | none => (distribution.getLast?.map (fun e => e.char), k + 1)

/-- The result of `[...allDirections].sort(() => random() - 0.5)`.
The comparator is inconsistent, so ECMAScript leaves the sort's output
(and its comparator call count) implementation-defined; it is modelled
as an oracle taking the direction list and the random source and
returning the reordered list with the advanced counter. -/
abbrev Shuffle := List Direction → RStream → ℕ → List Direction × ℕ

/-- The identity resolution of the implementation-defined sort,
consuming no draws.  (For a constant comparator result, e.g. a stream
that yields 0.5 at every shuffle draw, a stable conforming sort returns
exactly this order.) -/
def idShuffle : Shuffle := fun l _ k => (l, k)

/-- The per-word inner loop of `generatePuzzle`: try each direction in
the shuffled order until `findValidWordPosition` succeeds. -/
def tryDirections (word : String) (grid : Grid) (r : RStream) :
    List Direction → ℕ → Option (Position × Direction) × ℕ
  | [], k => (none, k)
  | d :: rest, k =>
    match findValidWordPosition word grid d r k with
    | (some p, k1) => (some (p, d), k1)
    | (none, k1) => tryDirections word grid r rest k1

/-- The word-placement loop of `generatePuzzle`.  Returns the final
grid, the recorded word positions, the `placed`-for-all flag, and the
counter. -/
def placeWords (shuffle : Shuffle) (allowBackwards : Bool) (r : RStream) :
    List String → Grid → List WordPosition → ℕ →
      Grid × List WordPosition × Bool × ℕ
  | [], grid, acc, k => (grid, acc, true, k)
  | word :: rest, grid, acc, k =>
    let baseDirections := getDirections false
    let allDirections := baseDirections ++
      (if allowBackwards then baseDirections.map (fun d => { d with isBackward := true })
        else [])
    let sh := shuffle allDirections r k
    match tryDirections word grid r sh.1 sh.2 with
    | (some (p, d), k2) =>
      let placed := placeWord word grid p d
      placeWords shuffle allowBackwards r rest placed.1 (acc ++ [⟨word, placed.2⟩]) k2
    | (none, k2) => (grid, acc, false, k2)

/-- Row-major list of all cells visited by the fill loops. -/
def cellList (gridSize : ℕ) : List (ℕ × ℕ) :=
  (List.range gridSize).flatMap (fun row => (List.range gridSize).map (fun col => (row, col)))

/-- The fill loops of `generatePuzzle`: every cell still holding the
empty sentinel is filled from the distribution; an error propagates the
TypeError of sampling an empty distribution. -/
def fillCells (dist : List DistEntry) (r : RStream) :
    List (ℕ × ℕ) → Grid → ℕ → Except (String × ℕ) (Grid × ℕ)
  | [], g, k => .ok (g, k)
  | rc :: rest, g, k =>
    if gridGet g (rc.1 : ℤ) (rc.2 : ℤ) = "" then
      match selectCharFromDistribution dist r k with
      | (some c, k1) => fillCells dist r rest (gridSet g (rc.1 : ℤ) (rc.2 : ℤ) c) k1
      | (none, k1) => .error ("TypeError", k1)
    else fillCells dist r rest g k

/-- Words processing of `generatePuzzle`: strip whitespace, keep words
with grapheme count in `[1, gridSize]`, sort by descending grapheme
count (stable). -/
def processWords (words : List String) (gridSize : ℕ) : List String :=
  sortDesc countGraphemes
    ((words.map (fun w => String.mk (w.toList.filter (fun c => !c.isWhitespace)))).filter
      (fun w => decide (0 < countGraphemes w) && decide (countGraphemes w ≤ gridSize)))

structure PuzzleResult where
  grid : Grid
  wordPositions : List WordPosition
  isValid : Bool
deriving DecidableEq

/-- `generatePuzzle` from the source.  Errors model JS throws and carry
the message together with the counter at the time of the throw. -/
def generatePuzzle (shuffle : Shuffle) (words : List String) (gridSize : ℕ)
    (allowBackwards : Bool) (attemptNumber maxAttempts : ℕ) (r : RStream) (k : ℕ) :
    Except (String × ℕ) (PuzzleResult × ℕ) :=
  let processedWords := processWords words gridSize
  if processedWords.isEmpty then .error ("No valid words provided", k)
  else
    let grid := initializeGrid gridSize
    let charDistribution := calculateCharacterDistribution processedWords attemptNumber maxAttempts
    let placedRes := placeWords shuffle allowBackwards r processedWords grid [] k
    if placedRes.2.2.1 then
      match fillCells charDistribution r (cellList gridSize) placedRes.1 placedRes.2.2.2 with
      | .ok (g2, k2) => .ok (⟨g2, placedRes.2.1, true⟩, k2)
      | .error e => .error e
    else .ok (⟨placedRes.1, placedRes.2.1, false⟩, placedRes.2.2.2)

structure FinalResult where
  grid : Grid
  words : List String
  wordPositions : List WordPosition
deriving DecidableEq

instance {ε α : Type} [DecidableEq ε] [DecidableEq α] : DecidableEq (Except ε α) :=
  fun a b =>
    match a, b with
    | .error e1, .error e2 => decidable_of_iff (e1 = e2) (by simp)
    | .error _, .ok _ => isFalse (fun hc => by cases hc)
    | .ok _, .error _ => isFalse (fun hc => by cases hc)
    | .ok a1, .ok a2 => decidable_of_iff (a1 = a2) (by simp)

/-- The retry loop of `generateWordSearch`: each thrown error is caught
and counts as a failed attempt; invalid results also retry.  The list
argument carries the remaining attempt numbers. -/
def genLoop (shuffle : Shuffle) (words : List String) (gridSize : ℕ)
    (allowBackwards : Bool) (r : RStream) :
    List ℕ → ℕ → Except (String × ℕ) FinalResult
  | [], k => .error ("Could not generate a valid puzzle after multiple attempts", k)
  | a :: rest, k =>
    match generatePuzzle shuffle words gridSize allowBackwards a 10 r k with
    | .ok (res, k1) =>
      if res.isValid then .ok ⟨res.grid, words, res.wordPositions⟩
      else genLoop shuffle words gridSize allowBackwards r rest k1
    | .error (_, k1) => genLoop shuffle words gridSize allowBackwards r rest k1

/-- `generateWordSearch` from the source: up to `MAX_PUZZLE_ATTEMPTS = 10`
attempts; note the returned `words` field is the raw input list. -/
def generateWordSearch (shuffle : Shuffle) (words : List String) (gridSize : ℕ)
    (allowBackwards : Bool) (r : RStream) (k : ℕ) : Except (String × ℕ) FinalResult :=
  genLoop shuffle words gridSize allowBackwards r (List.range 10) k

/-- The 4 forward scan vectors of the older variant's
`findWordOccurrences`. -/
def forwardScanDirections : List (ℤ × ℤ) := [(0, 1), (1, 0), (1, 1), (-1, 1)]

/-- The 4 backward scan vectors of the older variant's
`findWordOccurrences`. -/
def backwardScanDirections : List (ℤ × ℤ) := [(0, -1), (-1, 0), (-1, -1), (1, -1)]

/-- The full 8-direction scan space of the spec's VALIDATING step. -/
def allScanDirections : List (ℤ × ℤ) := forwardScanDirections ++ backwardScanDirections

/-- One inner iteration of `findWordOccurrences`: does `chars` read off
along `(dRow, dCol)` starting at `(row, col)`? -/
def occursAt (chars : List String) (g : Grid) (gridSize : ℕ) (row col dRow dCol : ℤ) :
    Bool :=
  let endRow := row + dRow * ((chars.length : ℤ) - 1)
  let endCol := col + dCol * ((chars.length : ℤ) - 1)
  if (gridSize : ℤ) ≤ endRow ∨ endRow < 0 ∨ (gridSize : ℤ) ≤ endCol ∨ endCol < 0 then
    false
  else
    (List.range chars.length).all
      (fun i => gridGet g (row + dRow * (i : ℤ)) (col + dCol * (i : ℤ)) == chars.getD i "")

/-- `findWordOccurrences` modelled from the older variant, parameterized
by the direction set to scan. -/
def findWordOccurrences (dirs : List (ℤ × ℤ)) (gridSize : ℕ) (word : String)
    (searchGrid : Grid) : ℕ :=
  let chars := splitGraphemes word
  ((cellList gridSize).map (fun rc =>
    dirs.countP (fun d => occursAt chars searchGrid gridSize (rc.1 : ℤ) (rc.2 : ℤ) d.1 d.2))).sum

/-- A constant draw stream (every `random()` call returns `q`). -/
def constS (q : ℚ) : RStream := fun _ => q

/-- The claim's characterization of a legal placement: every computed
cell in `[0, gridSize)` in both coordinates, and each cell empty or
already equal to the grapheme to be written. -/
def canPlaceSpec (word : String) (grid : Grid) (pos : Position)
    (direction : Direction) : Prop :=
  ∀ j, j < (wordCharsOf word direction).length →
    (0 ≤ pos.row + direction.dRow * (j : ℤ) ∧
      pos.row + direction.dRow * (j : ℤ) < (grid.length : ℤ) ∧
      0 ≤ pos.col + direction.dCol * (j : ℤ) ∧
      pos.col + direction.dCol * (j : ℤ) < (grid.length : ℤ)) ∧
    (gridGet grid (pos.row + direction.dRow * (j : ℤ))
        (pos.col + direction.dCol * (j : ℤ)) = "" ∨
      gridGet grid (pos.row + direction.dRow * (j : ℤ))
          (pos.col + direction.dCol * (j : ℤ)) =
        (wordCharsOf word direction).getD j "")

/-- A word-position whose cells are a catalog-direction ray inside the
grid and still carry the written graphemes. -/
def PlacedOK (g : Grid) (wp : WordPosition) : Prop :=
  ∃ d, d ∈ getDirections true ∧ ∃ row col : ℤ,
    wp.positions = (List.range (wordCharsOf wp.word d).length).map
        (fun j => cellAt row col d.dRow d.dCol j) ∧
    0 < (wordCharsOf wp.word d).length ∧
    ∀ j, j < (wordCharsOf wp.word d).length →
      inBounds g (row + d.dRow * (j : ℤ)) (col + d.dCol * (j : ℤ)) ∧
        gridGet g (row + d.dRow * (j : ℤ)) (col + d.dCol * (j : ℤ)) =
          (wordCharsOf wp.word d).getD j "" ∧
        (wordCharsOf wp.word d).getD j "" ≠ ""

lemma qMul_eq (a b : ℚ) : qMul a b = a * b := by
  rw [qMul, Rat.mkRat_eq_div]
  push_cast
  conv_rhs => rw [← Rat.num_div_den a, ← Rat.num_div_den b, div_mul_div_comm]

lemma qAdd_eq (a b : ℚ) : qAdd a b = a + b := by
  rw [qAdd, Rat.mkRat_eq_div]
  have ha : ((a.den : ℚ)) ≠ 0 := by exact_mod_cast a.den_nz
  have hb : ((b.den : ℚ)) ≠ 0 := by exact_mod_cast b.den_nz
  push_cast
  conv_rhs => rw [← Rat.num_div_den a, ← Rat.num_div_den b, div_add_div _ _ ha hb]
  ring_nf

lemma qSub_eq (a b : ℚ) : qSub a b = a - b := by
  rw [qSub, Rat.mkRat_eq_div]
  have ha : ((a.den : ℚ)) ≠ 0 := by exact_mod_cast a.den_nz
  have hb : ((b.den : ℚ)) ≠ 0 := by exact_mod_cast b.den_nz
  push_cast
  conv_rhs => rw [← Rat.num_div_den a, ← Rat.num_div_den b, div_sub_div _ _ ha hb]
  ring_nf

lemma qDiv_eq (a b : ℚ) : qDiv a b = a / b := by
  rw [qDiv, Rat.divInt_eq_div]
  by_cases hb : b = 0
  · subst hb
    simp
  · have ha : ((a.den : ℚ)) ≠ 0 := by exact_mod_cast a.den_nz
    have hbd : ((b.den : ℚ)) ≠ 0 := by exact_mod_cast b.den_nz
    have hbn : ((b.num : ℚ)) ≠ 0 := by
      exact_mod_cast Rat.num_ne_zero.mpr hb
    push_cast
    conv_rhs => rw [← Rat.num_div_den a, ← Rat.num_div_den b]
    rw [div_div_eq_mul_div, div_mul_eq_mul_div, div_div]

lemma qFloor_eq (q : ℚ) : qFloor q = ⌊q⌋ := by
  rw [qFloor, Rat.floor_def]
  exact Int.fdiv_eq_ediv _ (by positivity)

lemma gridDims_squareGrid {g : Grid} {n : ℕ} (h : GridDims g n) : SquareGrid g :=
  fun rowL hm => (h.2 rowL hm).trans h.1.symm

lemma gridDims_initializeGrid (n : ℕ) : GridDims (initializeGrid n) n := by
  constructor
  · simp [initializeGrid]
  · intro rowL hm
    simp only [initializeGrid, List.mem_replicate] at hm
    simp [hm.2]

lemma length_gridSet (g : Grid) (row col : ℤ) (v : String) :
    (gridSet g row col v).length = g.length := by
  unfold gridSet
  split <;> simp

lemma gridDims_gridSet {g : Grid} {n : ℕ} (h : GridDims g n) (row col : ℤ) (v : String) :
    GridDims (gridSet g row col v) n := by
  unfold gridSet
  split
  · rcases Nat.lt_or_ge row.toNat g.length with hlt | hge
    · refine ⟨by simpa using h.1, ?_⟩
      intro rowL hm
      rcases List.mem_or_eq_of_mem_set hm with hm2 | rfl
      · exact h.2 rowL hm2
      · have : g.getD row.toNat [] = g[row.toNat] := by
          simp [List.getD_eq_getElem?_getD, List.getElem?_eq_getElem hlt]
        rw [this]; simpa using h.2 _ (List.getElem_mem hlt)
    · rw [List.set_eq_of_length_le hge]
      exact h
  · exact h

lemma gridGet_gridSet_same {g : Grid} {n : ℕ} (h : GridDims g n) {row col : ℤ}
    (hb : inBounds g row col) (v : String) :
    gridGet (gridSet g row col v) row col = v := by
  obtain ⟨hr0, hrn, hc0, hcn⟩ := hb
  have hrlt : row.toNat < g.length := by omega
  have hrow : g.getD row.toNat [] = g[row.toNat] := by
    simp [List.getD_eq_getElem?_getD, List.getElem?_eq_getElem hrlt]
  have hclt : col.toNat < (g.getD row.toNat []).length := by
    rw [hrow, h.2 _ (List.getElem_mem hrlt), ← h.1]; omega
  unfold gridSet gridGet
  rw [if_pos ⟨hr0, hc0⟩, if_pos ⟨hr0, hc0⟩]
  have hset : (g.set row.toNat ((g.getD row.toNat []).set col.toNat v)).getD row.toNat [] =
      (g.getD row.toNat []).set col.toNat v := by
    simp [List.getD_eq_getElem?_getD, List.getElem?_set, hrlt]
  rw [hset]
  rw [List.getD_eq_getElem?_getD, List.getElem?_set]
  have hclt2 : col.toNat < (g[row.toNat]?.getD []).length := by
    rw [← List.getD_eq_getElem?_getD]; exact hclt
  simp [hclt2]

lemma gridGet_gridSet_ne {g : Grid} {row col row2 col2 : ℤ} (v : String)
    (h : (row2, col2) ≠ (row, col)) :
    gridGet (gridSet g row col v) row2 col2 = gridGet g row2 col2 := by
  unfold gridSet gridGet
  by_cases hw : 0 ≤ row ∧ 0 ≤ col
  · rw [if_pos hw]
    by_cases hq : 0 ≤ row2 ∧ 0 ≤ col2
    · rw [if_pos hq, if_pos hq]
      by_cases hrr : row2.toNat = row.toNat
      · have heqr : row2 = row := by omega
        have hcc : col2.toNat ≠ col.toNat := by
          intro hc
          exact h (by rw [heqr]; congr 1; omega)
        have hrowd : (g.set row.toNat ((g.getD row.toNat []).set col.toNat v)).getD row2.toNat [] =
            (g.getD row2.toNat []).set col.toNat v := by
          rcases Nat.lt_or_ge row2.toNat g.length with hlt | hge
          · simp [List.getD_eq_getElem?_getD, List.getElem?_set, hrr, hrr ▸ hlt]
          · simp only [List.getD_eq_getElem?_getD]
            have h1 : (List.set g row.toNat ((g[row.toNat]?.getD []).set col.toNat
                v))[row2.toNat]? = none := List.getElem?_eq_none (by simpa using hge)
            have h2 : g[row2.toNat]? = none := List.getElem?_eq_none hge
            rw [h1, h2]
            simp
        rw [hrowd]
        simp [List.getD_eq_getElem?_getD, List.getElem?_set, hcc, Ne.symm hcc]
      · have : (g.set row.toNat ((g.getD row.toNat []).set col.toNat v)).getD row2.toNat [] =
            g.getD row2.toNat [] := by
          simp [List.getD_eq_getElem?_getD, List.getElem?_set, Ne.symm hrr]
        rw [this]
    · rw [if_neg hq, if_neg hq]
  · rw [if_neg hw]

lemma splitGraphemes_ne_empty {w : String} {s : String} (h : s ∈ splitGraphemes w) :
    s ≠ "" := by
  simp only [splitGraphemes, List.mem_map] at h
  obtain ⟨c, _, rfl⟩ := h
  intro hc
  have h2 := congrArg String.length hc
  simp [String.length] at h2

/-- `checkCells` holds iff every remaining index is in bounds and its
cell is empty or already carries the grapheme to be written. -/
lemma checkCells_eq_true_iff (g : Grid) (row col dRow dCol : ℤ) (cs : List String) (i : ℕ) :
    checkCells g row col dRow dCol cs i = true ↔
      ∀ j, (hj : j < cs.length) →
        inBounds g (row + dRow * ((i + j : ℕ) : ℤ)) (col + dCol * ((i + j : ℕ) : ℤ)) ∧
          (gridGet g (row + dRow * ((i + j : ℕ) : ℤ)) (col + dCol * ((i + j : ℕ) : ℤ)) = "" ∨
            gridGet g (row + dRow * ((i + j : ℕ) : ℤ)) (col + dCol * ((i + j : ℕ) : ℤ)) =
              cs.getD j "") := by
  induction cs generalizing i with
  | nil => simp [checkCells]
  | cons ch rest ih =>
    rw [checkCells]
    by_cases hob : row + dRow * (i : ℤ) < 0 ∨ (g.length : ℤ) ≤ row + dRow * (i : ℤ) ∨
        col + dCol * (i : ℤ) < 0 ∨ (g.length : ℤ) ≤ col + dCol * (i : ℤ)
    · rw [if_pos hob]
      refine iff_of_false (by simp) ?_
      intro hall
      have h0 := hall 0 (by simp)
      have hb := h0.1
      unfold inBounds at hb
      push_cast at hb
      rcases hob with hx | hx | hx | hx <;>
        linarith [hb.1, hb.2.1, hb.2.2.1, hb.2.2.2]
    · rw [if_neg hob]
      by_cases hcc : gridGet g (row + dRow * (i : ℤ)) (col + dCol * (i : ℤ)) ≠ "" ∧
          gridGet g (row + dRow * (i : ℤ)) (col + dCol * (i : ℤ)) ≠ ch
      · rw [if_pos hcc]
        refine iff_of_false (by simp) ?_
        intro hall
        have h0 := (hall 0 (by simp)).2
        simp only [Nat.add_zero, List.getD_cons_zero] at h0
        rcases h0 with h0 | h0
        · exact hcc.1 h0
        · exact hcc.2 h0
      · rw [if_neg hcc]
        rw [ih (i + 1)]
        constructor
        · intro hrest j hj
          match j with
          | 0 =>
            refine ⟨?_, ?_⟩
            · have hcast : ((i + 0 : ℕ) : ℤ) = (i : ℤ) := by push_cast; ring
              rw [hcast]
              unfold inBounds
              push_neg at hob
              exact ⟨hob.1, hob.2.1, hob.2.2.1, hob.2.2.2⟩
            · push_neg at hcc
              simp only [Nat.add_zero, List.getD_cons_zero]
              by_cases he : gridGet g (row + dRow * (i : ℤ)) (col + dCol * (i : ℤ)) = ""
              · exact Or.inl he
              · exact Or.inr (hcc he)
          | j + 1 =>
            have := hrest j (by simpa using hj)
            have harith : (i + 1 + j : ℕ) = (i + (j + 1) : ℕ) := by omega
            rw [harith] at this
            simpa using this
        · intro hall j hj
          have := hall (j + 1) (by simpa using hj)
          have harith : (i + (j + 1) : ℕ) = (i + 1 + j : ℕ) := by omega
          rw [harith] at this
          simpa using this

lemma canPlaceWordAt_eq_checkCells (word : String) (grid : Grid) (pos : Position)
    (direction : Direction) :
    canPlaceWordAt word grid pos direction =
      checkCells grid pos.row pos.col direction.dRow direction.dCol
        (wordCharsOf word direction) 0 := rfl

lemma placeWord_eq_placeCells (word : String) (grid : Grid) (pos : Position)
    (direction : Direction) :
    placeWord word grid pos direction =
      placeCells pos.row pos.col direction.dRow direction.dCol
        (wordCharsOf word direction) grid 0 := rfl

lemma canPlaceWordAt_iff (word : String) (grid : Grid) (pos : Position)
    (direction : Direction) :
    canPlaceWordAt word grid pos direction = true ↔
      (∀ j, (hj : j < (wordCharsOf word direction).length) →
        inBounds grid (pos.row + direction.dRow * (j : ℤ))
            (pos.col + direction.dCol * (j : ℤ)) ∧
          (gridGet grid (pos.row + direction.dRow * (j : ℤ))
              (pos.col + direction.dCol * (j : ℤ)) = "" ∨
            gridGet grid (pos.row + direction.dRow * (j : ℤ))
                (pos.col + direction.dCol * (j : ℤ)) =
              (wordCharsOf word direction).getD j "")) := by
  rw [canPlaceWordAt_eq_checkCells, checkCells_eq_true_iff]
  simp

lemma inBounds_of_length_eq {g1 g2 : Grid} (h : g1.length = g2.length) {r c : ℤ}
    (hb : inBounds g1 r c) : inBounds g2 r c := by
  unfold inBounds at hb ⊢
  rw [← h]
  exact hb

lemma placeCells_snd (row col dRow dCol : ℤ) (cs : List String) (g : Grid) (i : ℕ) :
    (placeCells row col dRow dCol cs g i).2 =
      (List.range cs.length).map (fun j => cellAt row col dRow dCol (i + j)) := by
  induction cs generalizing g i with
  | nil => simp [placeCells]
  | cons ch rest ih =>
    rw [placeCells]
    simp only [List.length_cons, List.range_succ_eq_map, List.map_cons, List.map_map]
    congr 1
    rw [ih]
    apply List.map_congr_left
    intro j _
    simp only [Function.comp, cellAt, Nat.succ_eq_add_one, Position.mk.injEq]
    constructor <;> (push_cast; ring)

lemma placeCells_fst_dims {n : ℕ} (row col dRow dCol : ℤ) (cs : List String) (g : Grid)
    (i : ℕ) (h : GridDims g n) :
    GridDims (placeCells row col dRow dCol cs g i).1 n := by
  induction cs generalizing g i with
  | nil => exact h
  | cons ch rest ih => exact ih _ _ (gridDims_gridSet h _ _ _)

lemma placeCells_frame (row col dRow dCol : ℤ) (cs : List String) (g : Grid) (i : ℕ)
    (r c : ℤ)
    (h : ∀ j, j < cs.length →
      (r, c) ≠ (row + dRow * ((i + j : ℕ) : ℤ), col + dCol * ((i + j : ℕ) : ℤ))) :
    gridGet (placeCells row col dRow dCol cs g i).1 r c = gridGet g r c := by
  induction cs generalizing g i with
  | nil => rfl
  | cons ch rest ih =>
    rw [placeCells]
    have hstep := ih (gridSet g (row + dRow * (i : ℤ)) (col + dCol * (i : ℤ)) ch) (i + 1) ?_
    · rw [hstep]
      apply gridGet_gridSet_ne
      have := h 0 (by simp)
      simpa using this
    · intro j hj
      have := h (j + 1) (by simpa using hj)
      have harith : (i + (j + 1) : ℕ) = (i + 1 + j : ℕ) := by omega
      rw [harith] at this
      exact this

lemma cellAt_pair_ne {row col dRow dCol : ℤ} (hdir : ¬(dRow = 0 ∧ dCol = 0))
    {a b : ℕ} (hab : a ≠ b) :
    (row + dRow * (a : ℤ), col + dCol * (a : ℤ)) ≠
      (row + dRow * (b : ℤ), col + dCol * (b : ℤ)) := by
  intro h
  have hz : (a : ℤ) ≠ (b : ℤ) := by exact_mod_cast hab
  rcases not_and_or.mp hdir with hr | hc
  · have h1 : row + dRow * (a : ℤ) = row + dRow * (b : ℤ) := congrArg Prod.fst h
    have h2 : dRow * (a : ℤ) = dRow * (b : ℤ) := by linarith
    exact hz (mul_left_cancel₀ hr h2)
  · have h1 : col + dCol * (a : ℤ) = col + dCol * (b : ℤ) := congrArg Prod.snd h
    have h2 : dCol * (a : ℤ) = dCol * (b : ℤ) := by linarith
    exact hz (mul_left_cancel₀ hc h2)

lemma placeCells_writes {n : ℕ} {row col dRow dCol : ℤ}
    (hdir : ¬(dRow = 0 ∧ dCol = 0)) (cs : List String) (g : Grid) (i : ℕ)
    (hdims : GridDims g n)
    (hb : ∀ j, j < cs.length →
      inBounds g (row + dRow * ((i + j : ℕ) : ℤ)) (col + dCol * ((i + j : ℕ) : ℤ))) :
    ∀ j, j < cs.length →
      gridGet (placeCells row col dRow dCol cs g i).1
        (row + dRow * ((i + j : ℕ) : ℤ)) (col + dCol * ((i + j : ℕ) : ℤ)) =
        cs.getD j "" := by
  induction cs generalizing g i with
  | nil => intro j hj; simp at hj
  | cons ch rest ih =>
    intro j hj
    rw [placeCells]
    set g1 := gridSet g (row + dRow * (i : ℤ)) (col + dCol * (i : ℤ)) ch with hg1
    have hdims1 : GridDims g1 n := gridDims_gridSet hdims _ _ _
    have hlen1 : g1.length = g.length := length_gridSet g _ _ _
    match j with
    | 0 =>
      have hframe : gridGet (placeCells row col dRow dCol rest g1 (i + 1)).1
          (row + dRow * ((i + 0 : ℕ) : ℤ)) (col + dCol * ((i + 0 : ℕ) : ℤ)) =
          gridGet g1 (row + dRow * ((i + 0 : ℕ) : ℤ)) (col + dCol * ((i + 0 : ℕ) : ℤ)) := by
        apply placeCells_frame
        intro j2 hj2
        exact cellAt_pair_ne hdir (by omega)
      rw [hframe]
      have hb0 := hb 0 (by simp)
      have hb0g1 : inBounds g1 (row + dRow * ((i + 0 : ℕ) : ℤ))
          (col + dCol * ((i + 0 : ℕ) : ℤ)) :=
        inBounds_of_length_eq hlen1.symm hb0
      have hcast : ((i + 0 : ℕ) : ℤ) = (i : ℤ) := by push_cast; ring
      rw [hcast]
      have hb0i : inBounds g (row + dRow * (i : ℤ)) (col + dCol * (i : ℤ)) := by
        simpa using hb0
      simpa [hg1] using gridGet_gridSet_same hdims hb0i ch
    | j + 1 =>
      have := ih g1 (i + 1) hdims1 ?_ j (by simpa using hj)
      · have harith : (i + 1 + j : ℕ) = (i + (j + 1) : ℕ) := by omega
        rw [harith] at this
        simpa using this
      · intro j2 hj2
        have := hb (j2 + 1) (by simpa using hj2)
        have harith : (i + (j2 + 1) : ℕ) = (i + 1 + j2 : ℕ) := by omega
        rw [harith] at this
        exact inBounds_of_length_eq hlen1.symm this

lemma placeCells_preserves {n : ℕ} {row col dRow dCol : ℤ} {g0 : Grid}
    (hd0 : GridDims g0 n) (cs : List String) (i : ℕ) (g : Grid)
    (hdims : GridDims g n)
    (hcompat : ∀ j, j < cs.length →
      inBounds g0 (row + dRow * ((i + j : ℕ) : ℤ)) (col + dCol * ((i + j : ℕ) : ℤ)) ∧
        (gridGet g0 (row + dRow * ((i + j : ℕ) : ℤ)) (col + dCol * ((i + j : ℕ) : ℤ)) = "" ∨
          gridGet g0 (row + dRow * ((i + j : ℕ) : ℤ)) (col + dCol * ((i + j : ℕ) : ℤ)) =
            cs.getD j ""))
    (hagree : ∀ r c, gridGet g0 r c ≠ "" → gridGet g r c = gridGet g0 r c) :
    ∀ r c, gridGet g0 r c ≠ "" →
      gridGet (placeCells row col dRow dCol cs g i).1 r c = gridGet g0 r c := by
  induction cs generalizing g i with
  | nil => exact hagree
  | cons ch rest ih =>
    rw [placeCells]
    set g1 := gridSet g (row + dRow * (i : ℤ)) (col + dCol * (i : ℤ)) ch with hg1
    have hdims1 : GridDims g1 n := gridDims_gridSet hdims _ _ _
    have hlen1 : g1.length = g.length := length_gridSet g _ _ _
    have hagree1 : ∀ r c, gridGet g0 r c ≠ "" → gridGet g1 r c = gridGet g0 r c := by
      intro r c hne
      by_cases hrc : (r, c) = (row + dRow * (i : ℤ), col + dCol * (i : ℤ))
      · have hce : r = row + dRow * (i : ℤ) ∧ c = col + dCol * (i : ℤ) := by
          exact ⟨congrArg Prod.fst hrc, congrArg Prod.snd hrc⟩
        obtain ⟨rfl, rfl⟩ := hce
        have h0 := hcompat 0 (by simp)
        have hcast : ((i + 0 : ℕ) : ℤ) = (i : ℤ) := by push_cast; ring
        rw [hcast] at h0
        simp only [List.getD_cons_zero] at h0
        have hv : gridGet g0 (row + dRow * (i : ℤ)) (col + dCol * (i : ℤ)) = ch := by
          rcases h0.2 with he | he
          · exact absurd he hne
          · exact he
        have hbg : inBounds g (row + dRow * (i : ℤ)) (col + dCol * (i : ℤ)) :=
          inBounds_of_length_eq (by rw [hd0.1, hdims.1]) h0.1
        rw [hg1, gridGet_gridSet_same hdims hbg ch, hv]
      · rw [hg1, gridGet_gridSet_ne ch hrc]
        exact hagree r c hne
    apply ih (i + 1) g1 hdims1 ?_ hagree1
    intro j hj
    have := hcompat (j + 1) (by simpa using hj)
    have harith : (i + (j + 1) : ℕ) = (i + 1 + j : ℕ) := by omega
    rw [harith] at this
    simpa using this

/-- C4: for every word, square grid, anchor position, and direction,
`canPlaceWordAt` returns true iff, taking the word's grapheme sequence
(reversed when `isBackward`), every computed cell
`(row + dRow*i, col + dCol*i)` lies inside `[0, gridSize)` in both
coordinates and each such cell is either the empty sentinel or already
equal to the grapheme to be written at that index. -/
theorem claim_C4_canPlaceWordAt_characterization (word : String) (grid : Grid)
    (pos : Position) (direction : Direction) (hsq : SquareGrid grid) :
    canPlaceWordAt word grid pos direction = true ↔
      canPlaceSpec word grid pos direction := by
  rw [canPlaceWordAt_iff]
  unfold canPlaceSpec inBounds
  exact Iff.rfl

/-- C4 witness: the characterization applied to the 3x3 grid holding an
`h` at the origin, for the word `hi` placed rightwards. -/
theorem claim_C4_witness :
    SquareGrid [["h", "", ""], ["", "", ""], ["", "", ""]] ∧
      (canPlaceWordAt "hi" [["h", "", ""], ["", "", ""], ["", "", ""]] ⟨0, 0⟩
          ⟨0, 1, false⟩ = true ↔
        canPlaceSpec "hi" [["h", "", ""], ["", "", ""], ["", "", ""]] ⟨0, 0⟩
          ⟨0, 1, false⟩) :=
  ⟨by decide,
    claim_C4_canPlaceWordAt_characterization "hi"
      [["h", "", ""], ["", "", ""], ["", "", ""]] ⟨0, 0⟩ ⟨0, 1, false⟩ (by decide)⟩

lemma wordCharsOf_length (word : String) (direction : Direction) :
    (wordCharsOf word direction).length = (splitGraphemes word).length := by
  unfold wordCharsOf
  split <;> simp

lemma mem_intRange {lo hi x : ℤ} : x ∈ intRange lo hi ↔ lo ≤ x ∧ x ≤ hi := by
  unfold intRange
  rw [List.mem_map]
  constructor
  · rintro ⟨i, hi2, rfl⟩
    rw [List.mem_range] at hi2
    omega
  · rintro ⟨hl, hr⟩
    refine ⟨(x - lo).toNat, ?_, ?_⟩
    · rw [List.mem_range]
      omega
    · omega

lemma mem_candidatePositions {word : String} {grid : Grid} {direction : Direction}
    {p : Position} :
    p ∈ candidatePositions word grid direction ↔
      rowMinOf ((splitGraphemes word).length : ℤ) direction ≤ p.row ∧
      p.row ≤ rowMaxOf (grid.length : ℤ) ((splitGraphemes word).length : ℤ) direction ∧
      colMinOf ((splitGraphemes word).length : ℤ) direction ≤ p.col ∧
      p.col ≤ colMaxOf (grid.length : ℤ) ((splitGraphemes word).length : ℤ) direction ∧
      canPlaceWordAt word grid p direction = true := by
  unfold candidatePositions
  simp only [List.mem_flatMap, List.mem_filterMap, mem_intRange]
  constructor
  · rintro ⟨row, hrow, col, hcol, hif⟩
    by_cases hc : canPlaceWordAt word grid ⟨row, col⟩ direction = true
    · rw [if_pos hc] at hif
      cases hif
      exact ⟨hrow.1, hrow.2, hcol.1, hcol.2, hc⟩
    · rw [if_neg hc] at hif
      cases hif
  · rintro ⟨h1, h2, h3, h4, h5⟩
    refine ⟨p.row, ⟨h1, h2⟩, p.col, ⟨h3, h4⟩, ?_⟩
    have hp : (⟨p.row, p.col⟩ : Position) = p := rfl
    rw [hp, if_pos h5]

lemma jsIndex_eq_some_mem {l : List α} {i : ℤ} {a : α} (h : jsIndex l i = some a) :
    a ∈ l := by
  unfold jsIndex at h
  split at h
  · cases h
  · exact List.getElem?_mem h

lemma jsIndex_floor_isSome (l : List α) (hne : ¬l.isEmpty) {q : ℚ}
    (h0 : 0 ≤ q) (h1 : q < 1) :
    ∃ a, jsIndex l (qFloor (qMul q (l.length : ℚ))) = some a := by
  rw [qFloor_eq, qMul_eq]
  have hlen : 0 < l.length := by
    cases l with
    | nil => simp at hne
    | cons x xs => simp
  have hf0 : (0 : ℤ) ≤ ⌊q * (l.length : ℚ)⌋ := Int.le_floor.mpr (by positivity)
  have hql : q * (l.length : ℚ) < (l.length : ℚ) := by
    have hp : (0 : ℚ) < (l.length : ℚ) := by exact_mod_cast hlen
    nlinarith
  have hf1 : ⌊q * (l.length : ℚ)⌋ < (l.length : ℤ) := Int.floor_lt.mpr (by exact_mod_cast hql)
  have hlt : (⌊q * (l.length : ℚ)⌋).toNat < l.length := by omega
  refine ⟨l[(⌊q * (l.length : ℚ)⌋).toNat], ?_⟩
  unfold jsIndex
  rw [if_neg (by omega)]
  exact List.getElem?_eq_getElem hlt

lemma canPlace_false_of_out_of_box (word : String) (grid : Grid) (direction : Direction)
    (row col : ℤ) (hr0 : 0 ≤ row) (hrn : row < (grid.length : ℤ))
    (hc0 : 0 ≤ col) (hcn : col < (grid.length : ℤ))
    (hout : row < rowMinOf ((splitGraphemes word).length : ℤ) direction ∨
      rowMaxOf (grid.length : ℤ) ((splitGraphemes word).length : ℤ) direction < row ∨
      col < colMinOf ((splitGraphemes word).length : ℤ) direction ∨
      colMaxOf (grid.length : ℤ) ((splitGraphemes word).length : ℤ) direction < col) :
    canPlaceWordAt word grid ⟨row, col⟩ direction = false := by
  set len : ℤ := ((splitGraphemes word).length : ℤ) with hlen
  set gs : ℤ := (grid.length : ℤ) with hgs
  rw [Bool.eq_false_iff]
  intro htrue
  rw [canPlaceWordAt_iff] at htrue
  dsimp only at htrue
  set n := (wordCharsOf word direction).length with hn
  have hnlen : (n : ℤ) = len := by
    rw [hn, hlen, wordCharsOf_length]
  rcases hout with h | h | h | h
  · unfold rowMinOf at h
    by_cases hneg : direction.dRow < 0
    · rw [if_pos hneg] at h
      have hrow : row < len - 1 := by omega
      have hn1 : 1 ≤ n := by omega
      have hb := (htrue (n - 1) (by omega)).1.1
      have hcast : ((n - 1 : ℕ) : ℤ) = len - 1 := by omega
      rw [hcast] at hb
      have hmul : direction.dRow * (len - 1) ≤ (-1) * (len - 1) :=
        mul_le_mul_of_nonneg_right (by omega) (by omega)
      omega
    · rw [if_neg hneg] at h
      omega
  · unfold rowMaxOf at h
    by_cases hpos : 0 < direction.dRow
    · rw [if_pos hpos] at h
      have hrow : gs - len < row := by omega
      have hn1 : 1 ≤ n := by omega
      have hb := (htrue (n - 1) (by omega)).1.2.1
      have hcast : ((n - 1 : ℕ) : ℤ) = len - 1 := by omega
      rw [hcast] at hb
      have hmul : (1 : ℤ) * (len - 1) ≤ direction.dRow * (len - 1) :=
        mul_le_mul_of_nonneg_right (by omega) (by omega)
      omega
    · rw [if_neg hpos] at h
      omega
  · unfold colMinOf at h
    by_cases hneg : direction.dCol < 0
    · rw [if_pos hneg] at h
      have hcol : col < len - 1 := by omega
      have hn1 : 1 ≤ n := by omega
      have hb := (htrue (n - 1) (by omega)).1.2.2.1
      have hcast : ((n - 1 : ℕ) : ℤ) = len - 1 := by omega
      rw [hcast] at hb
      have hmul : direction.dCol * (len - 1) ≤ (-1) * (len - 1) :=
        mul_le_mul_of_nonneg_right (by omega) (by omega)
      omega
    · rw [if_neg hneg] at h
      omega
  · unfold colMaxOf at h
    by_cases hpos : 0 < direction.dCol
    · rw [if_pos hpos] at h
      have hcol : gs - len < col := by omega
      have hn1 : 1 ≤ n := by omega
      have hb := (htrue (n - 1) (by omega)).1.2.2.2
      have hcast : ((n - 1 : ℕ) : ℤ) = len - 1 := by omega
      rw [hcast] at hb
      have hmul : (1 : ℤ) * (len - 1) ≤ direction.dCol * (len - 1) :=
        mul_le_mul_of_nonneg_right (by omega) (by omega)
      omega
    · rw [if_neg hpos] at h
      omega

lemma findValidWordPosition_fst (word : String) (grid : Grid) (direction : Direction)
    (r : RStream) (k : ℕ) :
    (findValidWordPosition word grid direction r k).1 =
      if rowMaxOf (grid.length : ℤ) ((splitGraphemes word).length : ℤ) direction <
            rowMinOf ((splitGraphemes word).length : ℤ) direction ∨
          colMaxOf (grid.length : ℤ) ((splitGraphemes word).length : ℤ) direction <
            colMinOf ((splitGraphemes word).length : ℤ) direction then
        none
      else if (candidatePositions word grid direction).isEmpty then none
      else
        jsIndex (candidatePositions word grid direction)
          (qFloor (qMul (r k) ((candidatePositions word grid direction).length : ℚ))) := by
  unfold findValidWordPosition
  dsimp only
  split
  · rfl
  · split <;> rfl

lemma findValidWordPosition_some_canPlace {word : String} {grid : Grid}
    {direction : Direction} {r : RStream} {k : ℕ} {p : Position}
    (h : (findValidWordPosition word grid direction r k).1 = some p) :
    canPlaceWordAt word grid p direction = true := by
  rw [findValidWordPosition_fst] at h
  split at h
  · cases h
  · by_cases he : (candidatePositions word grid direction).isEmpty
    · rw [if_pos he] at h
      cases h
    · rw [if_neg he] at h
      have hmem := jsIndex_eq_some_mem h
      exact (mem_candidatePositions.mp hmem).2.2.2.2

lemma findValidWordPosition_none_iff {word : String} {grid : Grid}
    {direction : Direction} {r : RStream} {k : ℕ}
    (h0 : 0 ≤ r k) (h1 : r k < 1) :
    (findValidWordPosition word grid direction r k).1 = none ↔
      ∀ row col : ℤ, 0 ≤ row → row < (grid.length : ℤ) → 0 ≤ col →
        col < (grid.length : ℤ) →
        canPlaceWordAt word grid ⟨row, col⟩ direction = false := by
  constructor
  · intro hnone row col hr0 hrn hc0 hcn
    rw [findValidWordPosition_fst] at hnone
    split at hnone
    · rename_i hempty
      apply canPlace_false_of_out_of_box word grid direction row col hr0 hrn hc0 hcn
      rcases hempty with hre | hce
      · rcases lt_or_ge row (rowMinOf ((splitGraphemes word).length : ℤ) direction) with
          hlt | hge
        · exact Or.inl hlt
        · exact Or.inr (Or.inl (by omega))
      · rcases lt_or_ge col (colMinOf ((splitGraphemes word).length : ℤ) direction) with
          hlt | hge
        · exact Or.inr (Or.inr (Or.inl hlt))
        · exact Or.inr (Or.inr (Or.inr (by omega)))
    · by_cases he : (candidatePositions word grid direction).isEmpty
      · by_cases hin : rowMinOf ((splitGraphemes word).length : ℤ) direction ≤ row ∧
            row ≤ rowMaxOf (grid.length : ℤ) ((splitGraphemes word).length : ℤ) direction ∧
            colMinOf ((splitGraphemes word).length : ℤ) direction ≤ col ∧
            col ≤ colMaxOf (grid.length : ℤ) ((splitGraphemes word).length : ℤ) direction
        · rw [Bool.eq_false_iff]
          intro htrue
          have hmem : (⟨row, col⟩ : Position) ∈ candidatePositions word grid direction :=
            mem_candidatePositions.mpr ⟨hin.1, hin.2.1, hin.2.2.1, hin.2.2.2, htrue⟩
          rw [List.isEmpty_iff] at he
          rw [he] at hmem
          cases hmem
        · apply canPlace_false_of_out_of_box word grid direction row col hr0 hrn hc0 hcn
          omega
      · rw [if_neg he] at hnone
        obtain ⟨a, ha⟩ := jsIndex_floor_isSome (candidatePositions word grid direction) he h0 h1
        rw [ha] at hnone
        cases hnone
  · intro hall
    rw [findValidWordPosition_fst]
    split
    · rfl
    · by_cases he : (candidatePositions word grid direction).isEmpty
      · rw [if_pos he]
      · exfalso
        have hne : candidatePositions word grid direction ≠ [] := by
          intro hx
          rw [hx] at he
          simp at he
        obtain ⟨p, hp⟩ := List.exists_mem_of_ne_nil _ hne
        have hchar := mem_candidatePositions.mp hp
        have hrow0 : 0 ≤ p.row := by
          have := hchar.1
          unfold rowMinOf at this
          omega
        have hrown : p.row < (grid.length : ℤ) := by
          have := hchar.2.1
          unfold rowMaxOf at this
          omega
        have hcol0 : 0 ≤ p.col := by
          have := hchar.2.2.1
          unfold colMinOf at this
          omega
        have hcoln : p.col < (grid.length : ℤ) := by
          have := hchar.2.2.2.1
          unfold colMaxOf at this
          omega
        have hfalse := hall p.row p.col hrow0 hrown hcol0 hcoln
        have hp2 : (⟨p.row, p.col⟩ : Position) = p := rfl
        rw [hp2] at hfalse
        rw [hchar.2.2.2.2] at hfalse
        cases hfalse

/-- C3: `findValidWordPosition` returns `none` iff no position in the
grid passes `canPlaceWordAt` for that word and direction, and any
returned position passes `canPlaceWordAt` (no false negatives), for a
random draw in `[0, 1)`. -/
theorem claim_C3_findValidWordPosition_complete (word : String) (grid : Grid)
    (direction : Direction) (r : RStream) (k : ℕ) (hsq : SquareGrid grid)
    (h0 : 0 ≤ r k) (h1 : r k < 1) :
    ((findValidWordPosition word grid direction r k).1 = none ↔
      ∀ row col : ℤ, 0 ≤ row → row < (grid.length : ℤ) → 0 ≤ col →
        col < (grid.length : ℤ) →
        canPlaceWordAt word grid ⟨row, col⟩ direction = false) ∧
    (∀ p, (findValidWordPosition word grid direction r k).1 = some p →
      canPlaceWordAt word grid p direction = true) :=
  ⟨findValidWordPosition_none_iff h0 h1,
    fun _ hp => findValidWordPosition_some_canPlace hp⟩

/-- C3 witness: the completeness property applied to the word `hi` on an
empty 3x3 grid, rightward direction, with a constant-zero draw stream. -/
theorem claim_C3_witness :
    (SquareGrid (initializeGrid 3) ∧ (0 : ℚ) ≤ constS 0 0 ∧ constS 0 0 < 1) ∧
    (((findValidWordPosition "hi" (initializeGrid 3) ⟨0, 1, false⟩ (constS 0) 0).1 =
        none ↔
      ∀ row col : ℤ, 0 ≤ row → row < ((initializeGrid 3).length : ℤ) → 0 ≤ col →
        col < ((initializeGrid 3).length : ℤ) →
        canPlaceWordAt "hi" (initializeGrid 3) ⟨row, col⟩ ⟨0, 1, false⟩ = false) ∧
    (∀ p, (findValidWordPosition "hi" (initializeGrid 3) ⟨0, 1, false⟩ (constS 0) 0).1 =
        some p →
      canPlaceWordAt "hi" (initializeGrid 3) p ⟨0, 1, false⟩ = true)) :=
  ⟨⟨by decide, by decide, by decide⟩,
    claim_C3_findValidWordPosition_complete "hi" (initializeGrid 3) ⟨0, 1, false⟩
      (constS 0) 0 (by decide) (by decide) (by decide)⟩

/-- C7: for every word, square grid, anchor position, and direction with
a nonzero step vector whose computed cells all lie in bounds, `placeWord`
writes the word's graphemes (reversed when `isBackward`) into exactly the
cells `(row + dRow*i, col + dCol*i)`, returns those coordinates in write
order, and leaves every other grid cell unchanged. -/
theorem claim_C7_placeWord_effect (word : String) (grid : Grid) (pos : Position)
    (direction : Direction) (hsq : SquareGrid grid)
    (hdir : ¬(direction.dRow = 0 ∧ direction.dCol = 0))
    (hb : ∀ j, j < (wordCharsOf word direction).length →
      inBounds grid (pos.row + direction.dRow * (j : ℤ))
        (pos.col + direction.dCol * (j : ℤ))) :
    (placeWord word grid pos direction).2 =
      (List.range (wordCharsOf word direction).length).map
        (fun j => cellAt pos.row pos.col direction.dRow direction.dCol j) ∧
    (∀ j, j < (wordCharsOf word direction).length →
      gridGet (placeWord word grid pos direction).1
        (pos.row + direction.dRow * (j : ℤ)) (pos.col + direction.dCol * (j : ℤ)) =
        (wordCharsOf word direction).getD j "") ∧
    (∀ r c : ℤ,
      (∀ j, j < (wordCharsOf word direction).length →
        (r, c) ≠ (pos.row + direction.dRow * (j : ℤ),
          pos.col + direction.dCol * (j : ℤ))) →
      gridGet (placeWord word grid pos direction).1 r c = gridGet grid r c) := by
  have hdims : GridDims grid grid.length := ⟨rfl, hsq⟩
  rw [placeWord_eq_placeCells]
  refine ⟨?_, ?_, ?_⟩
  · rw [placeCells_snd]
    apply List.map_congr_left
    intro j _
    simp
  · intro j hj
    have := placeCells_writes hdir (wordCharsOf word direction) grid 0 hdims
      (by intro j2 hj2; simpa using hb j2 hj2) j hj
    simpa using this
  · intro r c hrc
    apply placeCells_frame
    intro j hj
    simpa using hrc j hj

/-- C7 witness: the claim's own example, `HI` at the origin with
direction `(0, 1, isBackward := true)`, yields `I` then `H`. -/
theorem claim_C7_witness :
    SquareGrid (initializeGrid 2) ∧
    (∀ j, j < (wordCharsOf "HI" ⟨0, 1, true⟩).length →
      gridGet (placeWord "HI" (initializeGrid 2) ⟨0, 0⟩ ⟨0, 1, true⟩).1
        ((0 : ℤ) + 0 * (j : ℤ)) ((0 : ℤ) + 1 * (j : ℤ)) =
        (wordCharsOf "HI" ⟨0, 1, true⟩).getD j "") ∧
    gridGet (placeWord "HI" (initializeGrid 2) ⟨0, 0⟩ ⟨0, 1, true⟩).1 0 0 = "I" ∧
    gridGet (placeWord "HI" (initializeGrid 2) ⟨0, 0⟩ ⟨0, 1, true⟩).1 0 1 = "H" :=
  ⟨by decide,
    (claim_C7_placeWord_effect "HI" (initializeGrid 2) ⟨0, 0⟩ ⟨0, 1, true⟩
      (by decide) (by decide) (by decide)).2.1,
    by decide, by decide⟩

/-- C5 counterexample: applied to the empty distribution the function
fails (the source dereferences `distribution[-1].char`, a TypeError,
modelled as `none`), and applied to a distribution whose first entry has
negative cumulative frequency, draw 0 does not return the first entry.
So the claim's "applied to any distribution, never fails; given draw = 0
it returns the first entry's grapheme" is false as stated. -/
theorem claim_C5_counterexample :
    (selectCharFromDistribution [] (constS 0) 0).1 = none ∧
    (selectCharFromDistribution [⟨"A", -1⟩, ⟨"B", 5⟩] (constS 0) 0).1 = some "B" ∧
    ([(⟨"A", -1⟩ : DistEntry), ⟨"B", 5⟩].head?.map (fun e => e.char) = some "A" ∧
      "B" ≠ "A") := by
  refine ⟨rfl, ?_, rfl, by decide⟩
  decide

/-- C5 amended: on any NON-EMPTY distribution `selectCharFromDistribution`
never fails: it returns the first entry whose cumulative frequency is at
least the draw, or the last entry when no entry qualifies; and for draw 0
it returns the first entry provided that entry's cumulative frequency is
nonnegative (true of every distribution the engine builds). -/
theorem claim_C5_selectChar_total (dist : List DistEntry) (h : dist ≠ []) (q : ℚ)
    (k : ℕ) :
    ((selectCharFromDistribution dist (constS q) k).1 =
      some (match dist.find? (fun e => decide (q ≤ e.cumulativeFreq)) with
            | some e => e.char
            | none => (dist.getLast h).char)) ∧
    (0 ≤ (dist.head h).cumulativeFreq →
      (selectCharFromDistribution dist (constS 0) k).1 = some ((dist.head h).char)) := by
  constructor
  · unfold selectCharFromDistribution constS
    cases hf : dist.find? (fun e => decide (q ≤ e.cumulativeFreq)) with
    | some e => simp [hf]
    | none =>
      simp only [hf]
      rw [List.getLast?_eq_getLast dist h]
      simp
  · intro h0
    unfold selectCharFromDistribution constS
    cases dist with
    | nil => exact absurd rfl h
    | cons a t =>
      have hfind : List.find? (fun e => decide ((0 : ℚ) ≤ e.cumulativeFreq)) (a :: t) =
          some a :=
        List.find?_cons_of_pos t (by simpa using h0)
      simp [hfind]

/-- C5 witness: the amended statement applied to the two-entry test
distribution with draw 1/4. -/
theorem claim_C5_witness :
    ([(⟨"a", 1/2⟩ : DistEntry), ⟨"b", 1⟩] ≠ []) ∧
    (((selectCharFromDistribution [⟨"a", 1/2⟩, ⟨"b", 1⟩] (constS (1/4)) 0).1 =
      some (match ([(⟨"a", 1/2⟩ : DistEntry), ⟨"b", 1⟩]).find?
              (fun e => decide ((1/4 : ℚ) ≤ e.cumulativeFreq)) with
            | some e => e.char
            | none =>
              (([(⟨"a", 1/2⟩ : DistEntry), ⟨"b", 1⟩]).getLast (by decide)).char)) ∧
    (0 ≤ (([(⟨"a", 1/2⟩ : DistEntry), ⟨"b", 1⟩]).head (by decide)).cumulativeFreq →
      (selectCharFromDistribution [⟨"a", 1/2⟩, ⟨"b", 1⟩] (constS 0) 0).1 =
        some ((([(⟨"a", 1/2⟩ : DistEntry), ⟨"b", 1⟩]).head (by decide)).char))) :=
  ⟨by decide,
    claim_C5_selectChar_total [⟨"a", 1/2⟩, ⟨"b", 1⟩] (by decide) (1/4) 0⟩

lemma foldl_push {α β : Type} (f : ℚ → α → ℚ) (g : ℚ → α → β) (l : List α) :
    ∀ (c : ℚ) (L : List β),
      l.foldl (fun acc x => (f acc.1 x, acc.2 ++ [g acc.1 x])) (c, L) =
        (l.foldl f c, L ++ scanOut f g c l) := by
  induction l with
  | nil => intro c L; simp [scanOut]
  | cons x xs ih =>
    intro c L
    rw [List.foldl_cons, List.foldl_cons]
    dsimp only
    rw [ih (f c x) (L ++ [g c x])]
    rw [scanOut]
    simp

lemma scanOut_enumFrom (F : ℕ × String → ℚ) (cs : List String) :
    ∀ (i0 : ℕ) (c : ℚ),
      scanOut (fun c ic => c + F ic) (fun c ic => (⟨ic.2, c + F ic⟩ : DistEntry)) c
          (List.enumFrom i0 cs) =
        (List.range cs.length).map (fun j =>
          (⟨cs.getD j "",
            c + ∑ mm in Finset.range (j + 1), F (i0 + mm, cs.getD mm "")⟩ : DistEntry)) := by
  induction cs with
  | nil => intro i0 c; simp [scanOut]
  | cons ch cs ih =>
    intro i0 c
    rw [show List.enumFrom i0 (ch :: cs) = (i0, ch) :: List.enumFrom (i0 + 1) cs from rfl]
    rw [scanOut]
    rw [ih (i0 + 1) (c + F (i0, ch))]
    rw [List.length_cons, List.range_succ_eq_map, List.map_cons, List.map_map]
    congr 1
    · simp [Finset.sum_range_one]
    · apply List.map_congr_left
      intro j hj
      simp only [Function.comp, Nat.succ_eq_add_one, List.getD_cons_succ]
      congr 1
      rw [Finset.sum_range_succ' (fun mm => F (i0 + mm, (ch :: cs).getD mm "")) (j + 1)]
      have hsum : ∑ mm in Finset.range (j + 1), F (i0 + (mm + 1), (ch :: cs).getD (mm + 1) "") =
          ∑ mm in Finset.range (j + 1), F (i0 + 1 + mm, cs.getD mm "") := by
        apply Finset.sum_congr rfl
        intro mm _
        have harg : i0 + (mm + 1) = i0 + 1 + mm := by omega
        rw [harg, List.getD_cons_succ]
      rw [hsum]
      simp only [Nat.add_zero, List.getD_cons_zero]
      ring

lemma calcDist_eq (words : List String) (a m : ℕ) :
    calculateCharacterDistribution words a m =
      (List.range (sortedCharsOf words).length).map (fun j =>
        (⟨(sortedCharsOf words).getD j "",
          ∑ mm in Finset.range (j + 1),
            interpFreqOf words a m (mm, (sortedCharsOf words).getD mm "")⟩ :
          DistEntry)) := by
  unfold calculateCharacterDistribution
  rw [List.enum_eq_enumFrom]
  have h := foldl_push (fun c ic => qAdd c (interpFreqOf words a m ic))
    (fun c ic => (⟨ic.2, qAdd c (interpFreqOf words a m ic)⟩ : DistEntry))
    (List.enumFrom 0 (sortedCharsOf words)) 0 []
  refine Eq.trans (congrArg Prod.snd h) ?_
  dsimp only
  rw [List.nil_append]
  have hf : (fun c ic => qAdd c (interpFreqOf words a m ic)) =
      (fun (c : ℚ) (ic : ℕ × String) => c + interpFreqOf words a m ic) := by
    funext c ic
    exact qAdd_eq c _
  have hg2 : (fun c ic => (⟨ic.2, qAdd c (interpFreqOf words a m ic)⟩ : DistEntry)) =
      (fun (c : ℚ) (ic : ℕ × String) =>
        (⟨ic.2, c + interpFreqOf words a m ic⟩ : DistEntry)) := by
    funext c ic
    rw [qAdd_eq]
  rw [hf, hg2, scanOut_enumFrom]
  apply List.map_congr_left
  intro j hj
  simp

lemma insertDesc_perm (key : α → ℕ) (a : α) (l : List α) :
    (insertDesc key a l).Perm (a :: l) := by
  induction l with
  | nil => simp [insertDesc]
  | cons b t ih =>
    rw [insertDesc]
    split
    · exact List.Perm.refl _
    · exact (List.Perm.cons b ih).trans (List.Perm.swap a b t)

lemma sortDesc_perm (key : α → ℕ) (l : List α) : (sortDesc key l).Perm l := by
  induction l with
  | nil => rfl
  | cons a t ih => exact (insertDesc_perm key a (sortDesc key t)).trans (List.Perm.cons a ih)

lemma mem_sortDesc {key : α → ℕ} {l : List α} {x : α} :
    x ∈ sortDesc key l ↔ x ∈ l :=
  (sortDesc_perm key l).mem_iff

lemma length_sortDesc (key : α → ℕ) (l : List α) :
    (sortDesc key l).length = l.length :=
  (sortDesc_perm key l).length_eq

lemma foldlFO_nodup :
    ∀ (l acc : List String), acc.Nodup →
      (l.foldl (fun acc c => if c ∈ acc then acc else acc ++ [c]) acc).Nodup := by
  intro l
  induction l with
  | nil => intro acc h; exact h
  | cons c t ih =>
    intro acc h
    rw [List.foldl_cons]
    by_cases hc : c ∈ acc
    · rw [if_pos hc]; exact ih acc h
    · rw [if_neg hc]
      apply ih
      rw [List.nodup_append]
      exact ⟨h, List.nodup_singleton c, by simpa [List.disjoint_singleton] using hc⟩

lemma foldlFO_mem :
    ∀ (l acc : List String) (x : String),
      x ∈ l.foldl (fun acc c => if c ∈ acc then acc else acc ++ [c]) acc ↔
        x ∈ acc ∨ x ∈ l := by
  intro l
  induction l with
  | nil => intro acc x; simp
  | cons c t ih =>
    intro acc x
    rw [List.foldl_cons]
    by_cases hc : c ∈ acc
    · rw [if_pos hc, ih]
      constructor
      · rintro (h | h)
        · exact Or.inl h
        · exact Or.inr (List.mem_cons_of_mem c h)
      · rintro (h | h)
        · exact Or.inl h
        · rcases List.mem_cons.mp h with rfl | h2
          · exact Or.inl hc
          · exact Or.inr h2
    · rw [if_neg hc, ih]
      simp only [List.mem_append, List.mem_singleton, List.mem_cons]
      tauto

lemma firstOccurrences_nodup (l : List String) : (firstOccurrences l).Nodup :=
  foldlFO_nodup l [] List.nodup_nil

lemma mem_firstOccurrences {l : List String} {x : String} :
    x ∈ firstOccurrences l ↔ x ∈ l := by
  unfold firstOccurrences
  rw [foldlFO_mem]
  simp

lemma sum_getD_range (l : List α) (f : α → ℚ) (d : α) :
    ∑ j in Finset.range l.length, f (l.getD j d) = (l.map f).sum := by
  induction l with
  | nil => simp
  | cons x xs ih =>
    rw [List.length_cons,
      Finset.sum_range_succ' (fun j => f ((x :: xs).getD j d)) xs.length]
    simp only [List.getD_cons_succ, List.getD_cons_zero, List.map_cons, List.sum_cons]
    rw [ih]
    ring

lemma sum_count_firstOccurrences (g : List String) :
    ((firstOccurrences g).map (fun c => (g.count c : ℚ))).sum = (g.length : ℚ) := by
  rw [← List.sum_toFinset _ (firstOccurrences_nodup g)]
  have htf : (firstOccurrences g).toFinset = g.toFinset := by
    ext x
    simp [List.mem_toFinset, mem_firstOccurrences]
  rw [htf]
  rw [show ∑ a in g.toFinset, ((g.count a : ℕ) : ℚ) =
      ((∑ a in g.toFinset, g.count a : ℕ) : ℚ) from (Nat.cast_sum _ _).symm]
  congr 1
  have h := Multiset.toFinset_sum_count_eq (g : Multiset String)
  simpa [Multiset.coe_count] using h

lemma sum_count_sortedChars (words : List String) :
    ((sortedCharsOf words).map (fun c => ((graphemesOf words).count c : ℚ))).sum =
      ((graphemesOf words).length : ℚ) := by
  unfold sortedCharsOf
  rw [List.Perm.sum_eq (List.Perm.map _ (sortDesc_perm _ _))]
  exact sum_count_firstOccurrences _

lemma interpFactor_bounds {a m : ℕ} (hm : 2 ≤ m) (ha : a ≤ m - 1) :
    0 ≤ interpFactor a m ∧ interpFactor a m ≤ 1 := by
  unfold interpFactor
  rw [qDiv_eq, qSub_eq]
  have hm1 : (0 : ℚ) < (m : ℚ) - 1 := by
    have h2 : (2 : ℚ) ≤ (m : ℚ) := by exact_mod_cast hm
    linarith
  constructor
  · positivity
  · rw [div_le_one hm1]
    have h2 : (a : ℚ) ≤ ((m - 1 : ℕ) : ℚ) := by exact_mod_cast ha
    have h3 : ((m - 1 : ℕ) : ℚ) = (m : ℚ) - 1 := by
      have h4 : (1 : ℕ) ≤ m := by omega
      push_cast [h4]
      ring
    linarith

lemma count_sorted_pos (words : List String) {j : ℕ}
    (hj : j < (sortedCharsOf words).length) :
    0 < (graphemesOf words).count ((sortedCharsOf words).getD j "") := by
  have hmem : (sortedCharsOf words).getD j "" ∈ sortedCharsOf words := by
    rw [List.getD_eq_getElem?_getD, List.getElem?_eq_getElem hj]
    exact List.getElem_mem hj
  rw [List.count_pos_iff]
  unfold sortedCharsOf at hmem
  rw [mem_sortDesc, mem_firstOccurrences] at hmem
  exact hmem

lemma interpFreq_pos (words : List String) (a m : ℕ) (hm : 2 ≤ m) (ha : a ≤ m - 1)
    (hg : graphemesOf words ≠ []) {j : ℕ}
    (hj : j < (sortedCharsOf words).length) :
    0 < interpFreqOf words a m (j, (sortedCharsOf words).getD j "") := by
  obtain ⟨ht0, ht1⟩ := interpFactor_bounds hm ha
  have hT : (0 : ℚ) < ((graphemesOf words).length : ℚ) := by
    have h2 := List.length_pos.mpr hg
    exact_mod_cast h2
  have hmirror : (sortedCharsOf words).length - 1 - j < (sortedCharsOf words).length := by
    omega
  have hp1 : (1 : ℚ) ≤
      ((graphemesOf words).count ((sortedCharsOf words).getD j "") : ℚ) := by
    exact_mod_cast count_sorted_pos words hj
  have hq1 : (1 : ℚ) ≤ ((graphemesOf words).count
      ((sortedCharsOf words).getD ((sortedCharsOf words).length - 1 - j) "") : ℚ) := by
    exact_mod_cast count_sorted_pos words hmirror
  unfold interpFreqOf
  dsimp only
  simp only [qAdd_eq, qMul_eq, qDiv_eq, qSub_eq]
  have heq : ∀ p q T t : ℚ, p / T * (1 - t) + q / T * t = (p * (1 - t) + q * t) / T := by
    intro p q T t
    ring
  rw [heq]
  apply div_pos
  · nlinarith
  · exact hT

lemma cum_total (words : List String) (a m : ℕ) (hg : graphemesOf words ≠ []) :
    ∑ mm in Finset.range (sortedCharsOf words).length,
      interpFreqOf words a m (mm, (sortedCharsOf words).getD mm "") = 1 := by
  have hT : (0 : ℚ) < ((graphemesOf words).length : ℚ) := by
    have h2 := List.length_pos.mpr hg
    exact_mod_cast h2
  have hsplit : ∀ mm ∈ Finset.range (sortedCharsOf words).length,
      interpFreqOf words a m (mm, (sortedCharsOf words).getD mm "") =
        ((graphemesOf words).count ((sortedCharsOf words).getD mm "") : ℚ) *
          ((1 - interpFactor a m) / ((graphemesOf words).length : ℚ)) +
        ((graphemesOf words).count ((sortedCharsOf words).getD
            ((sortedCharsOf words).length - 1 - mm) "") : ℚ) *
          (interpFactor a m / ((graphemesOf words).length : ℚ)) := by
    intro mm _
    unfold interpFreqOf
    dsimp only
    simp only [qAdd_eq, qMul_eq, qDiv_eq, qSub_eq]
    ring
  rw [Finset.sum_congr rfl hsplit, Finset.sum_add_distrib, ← Finset.sum_mul,
    ← Finset.sum_mul,
    Finset.sum_range_reflect
      (fun mm => ((graphemesOf words).count ((sortedCharsOf words).getD mm "") : ℚ))
      (sortedCharsOf words).length,
    sum_getD_range (sortedCharsOf words)
      (fun c => ((graphemesOf words).count c : ℚ)) "",
    sum_count_sortedChars]
  field_simp

lemma cum_lt (words : List String) (a m : ℕ) (hm : 2 ≤ m) (ha : a ≤ m - 1)
    (hg : graphemesOf words ≠ []) {i j : ℕ} (hij : i < j)
    (hjn : j < (sortedCharsOf words).length) :
    ∑ mm in Finset.range (i + 1),
        interpFreqOf words a m (mm, (sortedCharsOf words).getD mm "") <
      ∑ mm in Finset.range (j + 1),
        interpFreqOf words a m (mm, (sortedCharsOf words).getD mm "") := by
  have hsub : Finset.range (i + 1) ⊆ Finset.range (j + 1) :=
    Finset.range_subset.mpr (by omega)
  have hjm : j ∈ Finset.range (j + 1) := Finset.mem_range.mpr (by omega)
  have hjnm : j ∉ Finset.range (i + 1) := by
    rw [Finset.mem_range]
    omega
  apply Finset.sum_lt_sum_of_subset hsub hjm hjnm
  · exact interpFreq_pos words a m hm ha hg hjn
  · intro mm hmm _
    have hmn : mm < (sortedCharsOf words).length := by
      rw [Finset.mem_range] at hmm
      omega
    exact (interpFreq_pos words a m hm ha hg hmn).le

/-- C6 counterexample: `[""]` is a non-empty word list, yet the
distribution it produces is empty, so there is no final entry equal
to 1 (and no strictly increasing cumulative sequence of matching
length). -/
theorem claim_C6_counterexample :
    calculateCharacterDistribution [""] 0 10 = [] ∧ ([""] : List String) ≠ [] := by
  constructor
  · decide
  · simp

/-- C6 amended: for every word list containing AT LEAST ONE GRAPHEME in
total (rather than merely being non-empty), every `maxAttempts ≥ 2` and
`attemptIndex ≤ maxAttempts - 1`: the k-th entry carries the k-th most
frequent grapheme with cumulative value
`∑ (freq(rank mm)*(1-t) + freq(rank n-1-mm)*t)/total` for
`t = attemptIndex/(maxAttempts-1)`; the cumulative sequence is strictly
increasing; and the final entry equals exactly 1 in rational
arithmetic. -/
theorem claim_C6_distribution (words : List String) (attemptNumber maxAttempts : ℕ)
    (hg : graphemesOf words ≠ []) (hm : 2 ≤ maxAttempts)
    (ha : attemptNumber ≤ maxAttempts - 1) :
    (∀ j, j < (sortedCharsOf words).length →
      (calculateCharacterDistribution words attemptNumber maxAttempts).getD j ⟨"", 0⟩ =
        ⟨(sortedCharsOf words).getD j "",
          ∑ mm in Finset.range (j + 1),
            (((graphemesOf words).count ((sortedCharsOf words).getD mm "") : ℚ) *
                (1 - interpFactor attemptNumber maxAttempts) +
              ((graphemesOf words).count ((sortedCharsOf words).getD
                  ((sortedCharsOf words).length - 1 - mm) "") : ℚ) *
                interpFactor attemptNumber maxAttempts) /
              ((graphemesOf words).length : ℚ)⟩) ∧
    (∀ i j, i < j → j < (sortedCharsOf words).length →
      ((calculateCharacterDistribution words attemptNumber maxAttempts).getD i
          ⟨"", 0⟩).cumulativeFreq <
        ((calculateCharacterDistribution words attemptNumber maxAttempts).getD j
          ⟨"", 0⟩).cumulativeFreq) ∧
    (∃ e, (calculateCharacterDistribution words attemptNumber maxAttempts).getLast? =
        some e ∧ e.cumulativeFreq = 1) := by
  have hmap := calcDist_eq words attemptNumber maxAttempts
  have hgd : ∀ j, j < (sortedCharsOf words).length →
      (calculateCharacterDistribution words attemptNumber maxAttempts).getD j ⟨"", 0⟩ =
        ⟨(sortedCharsOf words).getD j "",
          ∑ mm in Finset.range (j + 1),
            interpFreqOf words attemptNumber maxAttempts
              (mm, (sortedCharsOf words).getD mm "")⟩ := by
    intro j hj
    rw [hmap, List.getD_eq_getElem?_getD, List.getElem?_map, List.getElem?_range hj]
    simp
  refine ⟨?_, ?_, ?_⟩
  · intro j hj
    rw [hgd j hj]
    congr 1
    apply Finset.sum_congr rfl
    intro mm _
    unfold interpFreqOf
    dsimp only
    simp only [qAdd_eq, qMul_eq, qDiv_eq, qSub_eq]
    ring
  · intro i j hij hjn
    rw [hgd i (lt_trans hij hjn), hgd j hjn]
    exact cum_lt words attemptNumber maxAttempts hm ha hg hij hjn
  · have hn : 0 < (sortedCharsOf words).length := by
      obtain ⟨x, hx⟩ := List.exists_mem_of_ne_nil _ hg
      have hx2 : x ∈ sortedCharsOf words := by
        unfold sortedCharsOf
        rw [mem_sortDesc, mem_firstOccurrences]
        exact hx
      exact List.length_pos.mpr (List.ne_nil_of_mem hx2)
    refine ⟨⟨(sortedCharsOf words).getD ((sortedCharsOf words).length - 1) "",
      ∑ mm in Finset.range (sortedCharsOf words).length,
        interpFreqOf words attemptNumber maxAttempts
          (mm, (sortedCharsOf words).getD mm "")⟩, ?_, ?_⟩
    · rw [hmap, List.getLast?_eq_getElem?]
      rw [List.length_map, List.length_range]
      rw [List.getElem?_map, List.getElem?_range (by omega)]
      have hidx : (sortedCharsOf words).length - 1 + 1 = (sortedCharsOf words).length := by
        omega
      simp [hidx]
    · exact cum_total words attemptNumber maxAttempts hg

/-- C6 witness: the amended statement applied to the word list `["AB"]`
with attempt 0 of 10; its final cumulative value is exactly 1. -/
theorem claim_C6_witness :
    (graphemesOf ["AB"] ≠ [] ∧ 2 ≤ 10 ∧ (0 : ℕ) ≤ 10 - 1) ∧
    (∃ e, (calculateCharacterDistribution ["AB"] 0 10).getLast? = some e ∧
      e.cumulativeFreq = 1) :=
  ⟨⟨by decide, by decide, by decide⟩,
    (claim_C6_distribution ["AB"] 0 10 (by decide) (by decide) (by decide)).2.2⟩

lemma generatePuzzle_noWords (shuffle : Shuffle) (words : List String) (gridSize : ℕ)
    (ab : Bool) (a m : ℕ) (r : RStream) (k : ℕ)
    (h : processWords words gridSize = []) :
    generatePuzzle shuffle words gridSize ab a m r k =
      .error ("No valid words provided", k) := by
  unfold generatePuzzle
  rw [h]
  rfl

lemma genLoop_exhausted (shuffle : Shuffle) (words : List String) (gridSize : ℕ)
    (ab : Bool) (r : RStream) (h : processWords words gridSize = []) :
    ∀ (l : List ℕ) (k : ℕ),
      genLoop shuffle words gridSize ab r l k =
        .error ("Could not generate a valid puzzle after multiple attempts", k) := by
  intro l
  induction l with
  | nil => intro k; rfl
  | cons x t ih =>
    intro k
    rw [genLoop, generatePuzzle_noWords shuffle words gridSize ab x 10 r k h]
    exact ih k

/-- C2 counterexample: with no placeable word, the top-level
`generateWordSearch` does NOT fail with the NoValidWords condition: the
"No valid words provided" throw is caught inside the retry loop on every
one of the 10 attempts, and the surfaced failure is the
generation-exhausted condition. -/
theorem claim_C2_counterexample :
    generateWordSearch idShuffle [] 5 false (constS 0) 0 =
      .error ("Could not generate a valid puzzle after multiple attempts", 0) ∧
    generateWordSearch idShuffle ["ABCDEFGHIJ"] 5 false (constS 0) 0 =
      .error ("Could not generate a valid puzzle after multiple attempts", 0) ∧
    "Could not generate a valid puzzle after multiple attempts" ≠
      "No valid words provided" :=
  ⟨by decide, by decide, by decide⟩

/-- C2 amended: when filtering leaves no placeable word, each
`generatePuzzle` call raises "No valid words provided" before any
placement work and before consuming any randomness (the error carries
the unchanged draw counter), but `generateWordSearch` catches it,
retries all 10 attempts, and fails with the generation-exhausted
message instead. -/
theorem claim_C2_noValidWords (words : List String) (gridSize : ℕ)
    (h : processWords words gridSize = []) :
    (∀ (shuffle : Shuffle) (ab : Bool) (a m : ℕ) (r : RStream) (k : ℕ),
      generatePuzzle shuffle words gridSize ab a m r k =
        .error ("No valid words provided", k)) ∧
    (∀ (shuffle : Shuffle) (ab : Bool) (r : RStream) (k : ℕ),
      generateWordSearch shuffle words gridSize ab r k =
        .error ("Could not generate a valid puzzle after multiple attempts", k)) :=
  ⟨fun shuffle ab a m r k => generatePuzzle_noWords shuffle words gridSize ab a m r k h,
    fun shuffle ab r k => genLoop_exhausted shuffle words gridSize ab r h (List.range 10) k⟩

/-- C2 witness: the amended statement applied to the empty word list on
a 5x5 grid. -/
theorem claim_C2_witness :
    processWords [] 5 = [] ∧
    ((∀ (shuffle : Shuffle) (ab : Bool) (a m : ℕ) (r : RStream) (k : ℕ),
      generatePuzzle shuffle [] 5 ab a m r k =
        .error ("No valid words provided", k)) ∧
    (∀ (shuffle : Shuffle) (ab : Bool) (r : RStream) (k : ℕ),
      generateWordSearch shuffle [] 5 ab r k =
        .error ("Could not generate a valid puzzle after multiple attempts", k))) :=
  ⟨rfl, claim_C2_noValidWords [] 5 rfl⟩

lemma genLoop_ok_words (shuffle : Shuffle) (words : List String) (gridSize : ℕ)
    (ab : Bool) (r : RStream) :
    ∀ (l : List ℕ) (k : ℕ) (res : FinalResult),
      genLoop shuffle words gridSize ab r l k = .ok res → res.words = words := by
  intro l
  induction l with
  | nil => intro k res h; cases h
  | cons x t ih =>
    intro k res h
    rw [genLoop] at h
    rcases hgp : generatePuzzle shuffle words gridSize ab x 10 r k with e | ⟨pres, k1⟩
    · rw [hgp] at h
      exact ih _ res h
    · rw [hgp] at h
      dsimp only at h
      by_cases hv : pres.isValid
      · rw [if_pos hv] at h
        cases h
        rfl
      · rw [if_neg hv] at h
        exact ih _ res h

/-- C9 counterexample: a successful `generateWordSearch` run on the raw
input `["A B"]` returns `words = ["A B"]` verbatim, not the post-filter
accepted list `["AB"]`. -/
theorem claim_C9_counterexample :
    (generateWordSearch idShuffle ["A B"] 2 false (constS (mkRat 1 2)) 0).map
        (fun res => res.words) = .ok ["A B"] ∧
    processWords ["A B"] 2 = ["AB"] ∧ (["A B"] : List String) ≠ ["AB"] :=
  ⟨by decide, by decide, by decide⟩

/-- C9 amended: the `words` field of every successful
`generateWordSearch` result is the RAW input word list as passed by the
caller (whitespace intact, unfiltered, unsorted); only the older
`wordSearch.ts` variant returned the processed list. -/
theorem claim_C9_words_field (shuffle : Shuffle) (words : List String) (gridSize : ℕ)
    (ab : Bool) (r : RStream) (k : ℕ) (res : FinalResult)
    (h : generateWordSearch shuffle words gridSize ab r k = .ok res) :
    res.words = words :=
  genLoop_ok_words shuffle words gridSize ab r (List.range 10) k res h

/-- C9 witness: the concrete run behind the counterexample, fed back
through the amended theorem. -/
theorem claim_C9_witness :
    generateWordSearch idShuffle ["A B"] 2 false (constS (mkRat 1 2)) 0 =
      .ok ⟨[["A", "A"], ["A", "B"]], ["A B"], [⟨"AB", [⟨1, 0⟩, ⟨1, 1⟩]⟩]⟩ ∧
    (FinalResult.mk [["A", "A"], ["A", "B"]] ["A B"]
        [⟨"AB", [⟨1, 0⟩, ⟨1, 1⟩]⟩]).words = ["A B"] :=
  ⟨by decide,
    claim_C9_words_field idShuffle ["A B"] 2 false (constS (mkRat 1 2)) 0
      ⟨[["A", "A"], ["A", "B"]], ["A B"], [⟨"AB", [⟨1, 0⟩, ⟨1, 1⟩]⟩]⟩ (by decide)⟩

/-- C8 counterexample: `generateWordSearch` exposes no random-source
parameter; its randomness is the ambient `Math.random` (modelled as the
ambient stream argument of the embedding).  Two calls with identical
arguments (word list, gridSize, allowBackwards) but different ambient
states return different `wordPositions`, refuting "all randomness flows
through the injected source rather than ambient global state" for the
entry point. -/
theorem claim_C8_counterexample :
    (generateWordSearch idShuffle ["A"] 2 false (constS 0) 0).map
        (fun res => res.wordPositions) = .ok [⟨"A", [⟨0, 0⟩]⟩] ∧
    (generateWordSearch idShuffle ["A"] 2 false (constS (mkRat 9 10)) 0).map
        (fun res => res.wordPositions) = .ok [⟨"A", [⟨1, 1⟩]⟩] ∧
    ([(⟨"A", [⟨0, 0⟩]⟩ : WordPosition)] ≠ [⟨"A", [⟨1, 1⟩]⟩]) :=
  ⟨by decide, by decide, by decide⟩

/-- C8 amended: `generatePuzzle` does accept an injected random source
and threads it through anchor selection and fill sampling (and the
direction sort's comparator); two calls with identical arguments and
sources producing the same draw sequence return identical results.  The
top-level `generateWordSearch` has no such parameter and inherits
ambient randomness. -/
theorem claim_C8_generatePuzzle_deterministic (shuffle : Shuffle)
    (words : List String) (gridSize : ℕ) (ab : Bool) (a m : ℕ)
    (r1 r2 : RStream) (k : ℕ) (h : ∀ i, r1 i = r2 i) :
    generatePuzzle shuffle words gridSize ab a m r1 k =
      generatePuzzle shuffle words gridSize ab a m r2 k := by
  rw [funext h]

/-- C8 witness: determinism applied to the one-word puzzle with two
syntactically distinct but pointwise-equal draw streams. -/
theorem claim_C8_witness :
    (∀ i, constS 0 i = (fun _ : ℕ => (0 : ℚ) + 0) i) ∧
    generatePuzzle idShuffle ["A"] 2 false 0 10 (constS 0) 0 =
      generatePuzzle idShuffle ["A"] 2 false 0 10 (fun _ : ℕ => (0 : ℚ) + 0) 0 :=
  ⟨fun i => by norm_num [constS],
    claim_C8_generatePuzzle_deterministic idShuffle ["A"] 2 false 0 10 (constS 0)
      (fun _ : ℕ => (0 : ℚ) + 0) 0 (fun i => by norm_num [constS])⟩

lemma getDirections_nonzero : ∀ d ∈ getDirections true, ¬(d.dRow = 0 ∧ d.dCol = 0) := by
  decide

lemma allDirections_sub (ab : Bool) :
    (getDirections false ++
      (if ab then (getDirections false).map (fun d => { d with isBackward := true })
        else [])) ⊆ getDirections true := by
  cases ab <;> decide

lemma getD_mem_of_lt {l : List α} {j : ℕ} (hj : j < l.length) (d : α) :
    l.getD j d ∈ l := by
  rw [List.getD_eq_getElem?_getD, List.getElem?_eq_getElem hj]
  exact List.getElem_mem hj

lemma wordCharsOf_ne_empty {w : String} {d : Direction} {s : String}
    (h : s ∈ wordCharsOf w d) : s ≠ "" := by
  unfold wordCharsOf at h
  split at h
  · exact splitGraphemes_ne_empty (List.mem_reverse.mp h)
  · exact splitGraphemes_ne_empty h

lemma placeWord_dims {n : ℕ} (word : String) (grid : Grid) (pos : Position)
    (d : Direction) (hdims : GridDims grid n) :
    GridDims (placeWord word grid pos d).1 n := by
  rw [placeWord_eq_placeCells]
  exact placeCells_fst_dims _ _ _ _ _ _ _ hdims

lemma placeWord_placedOK {n : ℕ} (word : String) (grid : Grid) (pos : Position)
    (d : Direction) (hdims : GridDims grid n) (hd : d ∈ getDirections true)
    (hcan : canPlaceWordAt word grid pos d = true)
    (hword : 0 < (splitGraphemes word).length) :
    PlacedOK (placeWord word grid pos d).1 ⟨word, (placeWord word grid pos d).2⟩ := by
  have hdir : ¬(d.dRow = 0 ∧ d.dCol = 0) := getDirections_nonzero d hd
  have hiff := (canPlaceWordAt_iff word grid pos d).mp hcan
  have hb : ∀ j, j < (wordCharsOf word d).length →
      inBounds grid (pos.row + d.dRow * (j : ℤ)) (pos.col + d.dCol * (j : ℤ)) :=
    fun j hj => (hiff j hj).1
  have hdims2 : GridDims (placeWord word grid pos d).1 n := placeWord_dims _ _ _ _ hdims
  refine ⟨d, hd, pos.row, pos.col, ?_, ?_, ?_⟩
  · show (placeWord word grid pos d).2 = _
    rw [placeWord_eq_placeCells, placeCells_snd]
    apply List.map_congr_left
    intro j _
    simp
  · show 0 < (wordCharsOf word d).length
    rw [wordCharsOf_length]
    exact hword
  · intro j hj
    refine ⟨?_, ?_, ?_⟩
    · refine inBounds_of_length_eq ?_ (hb j hj)
      rw [hdims.1, hdims2.1]
    · have hw := placeCells_writes hdir (wordCharsOf word d) grid 0 hdims
        (by intro j2 hj2; simpa using hb j2 hj2) j hj
      rw [placeWord_eq_placeCells]
      simpa using hw
    · exact wordCharsOf_ne_empty (getD_mem_of_lt hj "")

lemma placedOK_of_preserved {g g2 : Grid} (hlen : g2.length = g.length)
    (hpres : ∀ rr cc, gridGet g rr cc ≠ "" → gridGet g2 rr cc = gridGet g rr cc)
    {wp : WordPosition} (h : PlacedOK g wp) : PlacedOK g2 wp := by
  obtain ⟨d, hd, row, col, hpos, hlen2, hcells⟩ := h
  refine ⟨d, hd, row, col, hpos, hlen2, ?_⟩
  intro j hj
  obtain ⟨hbnd, hv, hne⟩ := hcells j hj
  refine ⟨inBounds_of_length_eq hlen.symm hbnd, ?_, hne⟩
  rw [hpres _ _ (by rw [hv]; exact hne), hv]

lemma placeWord_preserves {n : ℕ} (word : String) (grid : Grid) (pos : Position)
    (d : Direction) (hdims : GridDims grid n)
    (hcan : canPlaceWordAt word grid pos d = true) :
    ∀ rr cc, gridGet grid rr cc ≠ "" →
      gridGet (placeWord word grid pos d).1 rr cc = gridGet grid rr cc := by
  have hiff := (canPlaceWordAt_iff word grid pos d).mp hcan
  intro rr cc hne
  rw [placeWord_eq_placeCells]
  apply placeCells_preserves hdims (wordCharsOf word d) 0 grid hdims ?_
    (fun _ _ _ => rfl) rr cc hne
  intro j hj
  have hthis := hiff j hj
  constructor
  · simpa using hthis.1
  · simpa using hthis.2

lemma tryDirections_some (word : String) (grid : Grid) (r : RStream) :
    ∀ (dirs : List Direction) (k : ℕ) (p : Position) (d : Direction) (k2 : ℕ),
      tryDirections word grid r dirs k = (some (p, d), k2) →
      d ∈ dirs ∧ canPlaceWordAt word grid p d = true := by
  intro dirs
  induction dirs with
  | nil =>
    intro k p d k2 h
    simp [tryDirections] at h
  | cons dd rest ih =>
    intro k p d k2 h
    rw [tryDirections] at h
    rcases hf : findValidWordPosition word grid dd r k with ⟨op, k1⟩
    rw [hf] at h
    cases op with
    | some pp =>
      simp only [Prod.mk.injEq, Option.some.injEq] at h
      obtain ⟨⟨hp, hd⟩, hk⟩ := h
      subst hp
      subst hd
      constructor
      · exact List.mem_cons_self dd rest
      · apply findValidWordPosition_some_canPlace
        rw [hf]
    | none =>
      obtain ⟨hmem, hcan⟩ := ih k1 p d k2 h
      exact ⟨List.mem_cons_of_mem dd hmem, hcan⟩

lemma placeWords_invariant {n : ℕ} (shuffle : Shuffle) (ab : Bool) (r : RStream)
    (hsub : ∀ (l : List Direction) (rr : RStream) (kk : ℕ), (shuffle l rr kk).1 ⊆ l) :
    ∀ (ws : List String) (g : Grid) (acc : List WordPosition) (k : ℕ),
      GridDims g n → (∀ w ∈ ws, 0 < (splitGraphemes w).length) →
      (∀ wp ∈ acc, PlacedOK g wp) →
      GridDims (placeWords shuffle ab r ws g acc k).1 n ∧
      (∀ wp ∈ (placeWords shuffle ab r ws g acc k).2.1,
        PlacedOK (placeWords shuffle ab r ws g acc k).1 wp) ∧
      ((placeWords shuffle ab r ws g acc k).2.2.1 = true →
        (placeWords shuffle ab r ws g acc k).2.1.map (fun wp => wp.word) =
          acc.map (fun wp => wp.word) ++ ws) := by
  intro ws
  induction ws with
  | nil =>
    intro g acc k hdims hws hacc
    refine ⟨hdims, hacc, ?_⟩
    intro _
    simp [placeWords]
  | cons w ws ih =>
    intro g acc k hdims hws hacc
    rw [placeWords]
    dsimp only
    rcases htd : tryDirections w g r
        (shuffle (getDirections false ++
          (if ab then (getDirections false).map (fun d => { d with isBackward := true })
            else [])) r k).1
        (shuffle (getDirections false ++
          (if ab then (getDirections false).map (fun d => { d with isBackward := true })
            else [])) r k).2 with
      ⟨op, k2⟩
    rw [htd]
    cases op with
    | some pd =>
      obtain ⟨p, d⟩ := pd
      obtain ⟨hdmem, hcan⟩ := tryDirections_some w g r _ _ p d k2 htd
      have hdall : d ∈ getDirections true := allDirections_sub ab (hsub _ r k hdmem)
      have hword : 0 < (splitGraphemes w).length := hws w (List.mem_cons_self w ws)
      have hdims2 : GridDims (placeWord w g p d).1 n := placeWord_dims _ _ _ _ hdims
      have hpres := placeWord_preserves w g p d hdims hcan
      have hlen2 : (placeWord w g p d).1.length = g.length := by
        rw [hdims.1, hdims2.1]
      have hacc2 : ∀ wp ∈ acc ++ [⟨w, (placeWord w g p d).2⟩],
          PlacedOK (placeWord w g p d).1 wp := by
        intro wp hwp
        rcases List.mem_append.mp hwp with hold | hnew
        · exact placedOK_of_preserved hlen2 hpres (hacc wp hold)
        · rw [List.mem_singleton] at hnew
          subst hnew
          exact placeWord_placedOK w g p d hdims hdall hcan hword
      have hrest := ih (placeWord w g p d).1 (acc ++ [⟨w, (placeWord w g p d).2⟩]) k2
        hdims2 (fun w2 hw2 => hws w2 (List.mem_cons_of_mem w hw2)) hacc2
      refine ⟨hrest.1, hrest.2.1, ?_⟩
      intro hflag
      rw [hrest.2.2 hflag]
      simp
    | none =>
      refine ⟨hdims, hacc, ?_⟩
      intro hflag
      cases hflag

lemma selectChar_some (dist : List DistEntry) (hne : dist ≠ []) (r : RStream) (k : ℕ) :
    ∃ c, selectCharFromDistribution dist r k = (some c, k + 1) := by
  unfold selectCharFromDistribution
  dsimp only
  cases hf : dist.find? (fun e => r k ≤ e.cumulativeFreq) with
  | some e => exact ⟨e.char, rfl⟩
  | none =>
    refine ⟨(dist.getLast hne).char, ?_⟩
    rw [List.getLast?_eq_getLast dist hne]
    rfl

lemma fillCells_ok_spec (dist : List DistEntry) (r : RStream) :
    ∀ (cells : List (ℕ × ℕ)) (g : Grid) (k : ℕ) (g2 : Grid) (k2 : ℕ),
      fillCells dist r cells g k = .ok (g2, k2) →
      (∀ n, GridDims g n → GridDims g2 n) ∧
      (∀ rr cc, gridGet g rr cc ≠ "" → gridGet g2 rr cc = gridGet g rr cc) := by
  intro cells
  induction cells with
  | nil =>
    intro g k g2 k2 h
    simp only [fillCells, Except.ok.injEq, Prod.mk.injEq] at h
    obtain ⟨rfl, rfl⟩ := h
    exact ⟨fun n hn => hn, fun _ _ _ => rfl⟩
  | cons rc rest ih =>
    intro g k g2 k2 h
    rw [fillCells] at h
    by_cases hc : gridGet g (rc.1 : ℤ) (rc.2 : ℤ) = ""
    · rw [if_pos hc] at h
      rcases hsel : selectCharFromDistribution dist r k with ⟨oc, k1⟩
      rw [hsel] at h
      cases oc with
      | some c =>
        obtain ⟨hdims, hpres⟩ := ih (gridSet g (rc.1 : ℤ) (rc.2 : ℤ) c) k1 g2 k2 h
        refine ⟨fun n hn => hdims n (gridDims_gridSet hn _ _ _), ?_⟩
        intro rr cc hne
        have hneq : ((rr, cc) : ℤ × ℤ) ≠ ((rc.1 : ℤ), (rc.2 : ℤ)) := by
          intro he
          apply hne
          have h1 : rr = (rc.1 : ℤ) := congrArg Prod.fst he
          have h2 : cc = (rc.2 : ℤ) := congrArg Prod.snd he
          rw [h1, h2]
          exact hc
        have hsame : gridGet (gridSet g (rc.1 : ℤ) (rc.2 : ℤ) c) rr cc =
            gridGet g rr cc := gridGet_gridSet_ne c hneq
        rw [hpres rr cc (by rw [hsame]; exact hne), hsame]
      | none => cases h
    · rw [if_neg hc] at h
      exact ih g k g2 k2 h

lemma fillCells_ok_exists (dist : List DistEntry) (hne : dist ≠ []) (r : RStream) :
    ∀ (cells : List (ℕ × ℕ)) (g : Grid) (k : ℕ),
      ∃ g2 k2, fillCells dist r cells g k = .ok (g2, k2) := by
  intro cells
  induction cells with
  | nil => intro g k; exact ⟨g, k, rfl⟩
  | cons rc rest ih =>
    intro g k
    rw [fillCells]
    by_cases hc : gridGet g (rc.1 : ℤ) (rc.2 : ℤ) = ""
    · rw [if_pos hc]
      obtain ⟨c, hcel⟩ := selectChar_some dist hne r k
      rw [hcel]
      exact ih _ _
    · rw [if_neg hc]
      exact ih g k

lemma processWords_pos (words : List String) (gridSize : ℕ) :
    ∀ w ∈ processWords words gridSize, 0 < (splitGraphemes w).length := by
  intro w hw
  unfold processWords at hw
  rw [mem_sortDesc, List.mem_filter] at hw
  have h2 := hw.2
  simp only [Bool.and_eq_true, decide_eq_true_eq] at h2
  exact h2.1

lemma generatePuzzle_valid (shuffle : Shuffle)
    (hsub : ∀ (l : List Direction) (rr : RStream) (kk : ℕ), (shuffle l rr kk).1 ⊆ l)
    (words : List String) (gridSize : ℕ) (ab : Bool) (a m : ℕ) (r : RStream) (k : ℕ)
    (res : PuzzleResult) (k2 : ℕ)
    (h : generatePuzzle shuffle words gridSize ab a m r k = .ok (res, k2))
    (hv : res.isValid = true) :
    GridDims res.grid gridSize ∧ (∀ wp ∈ res.wordPositions, PlacedOK res.grid wp) ∧
      res.wordPositions.map (fun wp => wp.word) = processWords words gridSize := by
  unfold generatePuzzle at h
  dsimp only at h
  by_cases hpw : (processWords words gridSize).isEmpty
  · rw [if_pos hpw] at h
    cases h
  · rw [if_neg hpw] at h
    have hwords := processWords_pos words gridSize
    obtain ⟨hdims1, hplaced1, hmap1⟩ :=
      placeWords_invariant shuffle ab r hsub (processWords words gridSize)
        (initializeGrid gridSize) [] k (gridDims_initializeGrid gridSize) hwords
        (by intro wp hwp; cases hwp)
    by_cases hflag :
      (placeWords shuffle ab r (processWords words gridSize)
        (initializeGrid gridSize) [] k).2.2.1
    · rw [if_pos hflag] at h
      rcases hfc : fillCells (calculateCharacterDistribution (processWords words gridSize) a m)
          r (cellList gridSize)
          (placeWords shuffle ab r (processWords words gridSize)
            (initializeGrid gridSize) [] k).1
          (placeWords shuffle ab r (processWords words gridSize)
            (initializeGrid gridSize) [] k).2.2.2 with e | g2k2
      · rw [hfc] at h
        cases h
      · rw [hfc] at h
        simp only [Except.ok.injEq, Prod.mk.injEq] at h
        obtain ⟨hres, hk2⟩ := h
        subst hres
        obtain ⟨hfdims, hfpres⟩ := fillCells_ok_spec _ r _ _ _ _ _ hfc
        have hdims2 : GridDims g2k2.1 gridSize := hfdims gridSize hdims1
        refine ⟨hdims2, ?_, ?_⟩
        · intro wp hwp
          refine placedOK_of_preserved ?_ hfpres (hplaced1 wp hwp)
          rw [hdims1.1, hdims2.1]
        · have := hmap1 hflag
          simpa using this
    · rw [if_neg hflag] at h
      simp only [Except.ok.injEq, Prod.mk.injEq] at h
      obtain ⟨hres, hk2⟩ := h
      subst hres
      cases hv

/-- C10: for every valid `generatePuzzle` run (under any shuffle
resolution returning a sublist of its input, as every conforming JS
sort does), every recorded WordPosition still reads back from the final
grid: its cells, in recorded order, hold the word's graphemes in write
order (reversed when placed backward) and none of them is the empty
sentinel.  Moreover (the mechanism): a placement validated by
`canPlaceWordAt` never overwrites a non-empty cell with a different
value, and the fill step never changes a non-empty cell. -/
theorem claim_C10_placements_read_back (shuffle : Shuffle)
    (hsub : ∀ (l : List Direction) (rr : RStream) (kk : ℕ), (shuffle l rr kk).1 ⊆ l)
    (words : List String) (gridSize : ℕ) (ab : Bool) (a m : ℕ) (r : RStream) (k : ℕ)
    (res : PuzzleResult) (k2 : ℕ)
    (h : generatePuzzle shuffle words gridSize ab a m r k = .ok (res, k2))
    (hv : res.isValid = true) :
    (∀ wp ∈ res.wordPositions, ∃ written : List String,
      (written = splitGraphemes wp.word ∨ written = (splitGraphemes wp.word).reverse) ∧
      wp.positions.length = written.length ∧
      ∀ j, j < written.length →
        gridGet res.grid (wp.positions.getD j ⟨0, 0⟩).row
            (wp.positions.getD j ⟨0, 0⟩).col = written.getD j "" ∧
          written.getD j "" ≠ "") ∧
    (∀ (word : String) (grid : Grid) (pos : Position) (d : Direction) (n : ℕ),
      GridDims grid n → canPlaceWordAt word grid pos d = true →
      ∀ rr cc, gridGet grid rr cc ≠ "" →
        gridGet (placeWord word grid pos d).1 rr cc = gridGet grid rr cc) ∧
    (∀ (dist : List DistEntry) (r2 : RStream) (cells : List (ℕ × ℕ)) (g : Grid)
      (kk : ℕ) (g2 : Grid) (kk2 : ℕ),
      fillCells dist r2 cells g kk = .ok (g2, kk2) →
      ∀ rr cc, gridGet g rr cc ≠ "" → gridGet g2 rr cc = gridGet g rr cc) := by
  obtain ⟨hdims, hplaced, hmap⟩ :=
    generatePuzzle_valid shuffle hsub words gridSize ab a m r k res k2 h hv
  refine ⟨?_, ?_, ?_⟩
  · intro wp hwp
    obtain ⟨d, hd, row, col, hpos, hlen, hcells⟩ := hplaced wp hwp
    refine ⟨wordCharsOf wp.word d, ?_, ?_, ?_⟩
    · unfold wordCharsOf
      split
      · exact Or.inr rfl
      · exact Or.inl rfl
    · rw [hpos]
      simp
    · intro j hj
      have hgd : wp.positions.getD j ⟨0, 0⟩ = cellAt row col d.dRow d.dCol j := by
        rw [hpos, List.getD_eq_getElem?_getD, List.getElem?_map,
          List.getElem?_range hj]
        rfl
      rw [hgd]
      obtain ⟨hbnd, hval, hne⟩ := hcells j hj
      exact ⟨hval, hne⟩
  · intro word grid pos d n hd hcan rr cc hne
    exact placeWord_preserves word grid pos d hd hcan rr cc hne
  · intro dist r2 cells g kk g2 kk2 hfc rr cc hne
    exact (fillCells_ok_spec dist r2 cells g kk g2 kk2 hfc).2 rr cc hne

/-- C10 witness: the read-back property applied to the concrete valid
run for the word `AB` on a 2x2 grid. -/
theorem claim_C10_witness :
    ((∀ (l : List Direction) (rr : RStream) (kk : ℕ), (idShuffle l rr kk).1 ⊆ l) ∧
      generatePuzzle idShuffle ["AB"] 2 false 0 10 (constS (mkRat 1 2)) 0 =
        .ok (⟨[["A", "A"], ["A", "B"]], [⟨"AB", [⟨1, 0⟩, ⟨1, 1⟩]⟩], true⟩, 3) ∧
      (PuzzleResult.mk [["A", "A"], ["A", "B"]] [⟨"AB", [⟨1, 0⟩, ⟨1, 1⟩]⟩]
        true).isValid = true) ∧
    (∀ wp ∈ (PuzzleResult.mk [["A", "A"], ["A", "B"]] [⟨"AB", [⟨1, 0⟩, ⟨1, 1⟩]⟩]
        true).wordPositions,
      ∃ written : List String,
        (written = splitGraphemes wp.word ∨
          written = (splitGraphemes wp.word).reverse) ∧
        wp.positions.length = written.length ∧
        ∀ j, j < written.length →
          gridGet (PuzzleResult.mk [["A", "A"], ["A", "B"]]
              [⟨"AB", [⟨1, 0⟩, ⟨1, 1⟩]⟩] true).grid
              (wp.positions.getD j ⟨0, 0⟩).row (wp.positions.getD j ⟨0, 0⟩).col =
            written.getD j "" ∧ written.getD j "" ≠ "") :=
  ⟨⟨fun l _ _ => fun x hx => hx, by decide, by decide⟩,
    (claim_C10_placements_read_back idShuffle (fun l _ _ => fun x hx => hx) ["AB"] 2
      false 0 10 (constS (mkRat 1 2)) 0
      ⟨[["A", "A"], ["A", "B"]], [⟨"AB", [⟨1, 0⟩, ⟨1, 1⟩]⟩], true⟩ 3 (by decide)
      (by decide)).1⟩

lemma mem_cellList {gridSize : ℕ} {rc : ℕ × ℕ} :
    rc ∈ cellList gridSize ↔ rc.1 < gridSize ∧ rc.2 < gridSize := by
  unfold cellList
  rw [List.mem_flatMap]
  constructor
  · rintro ⟨row, hrow, hmem⟩
    rw [List.mem_range] at hrow
    rw [List.mem_map] at hmem
    obtain ⟨col, hcol, hrc⟩ := hmem
    rw [List.mem_range] at hcol
    rw [← hrc]
    exact ⟨hrow, hcol⟩
  · rintro ⟨h1, h2⟩
    refine ⟨rc.1, List.mem_range.mpr h1, List.mem_map.mpr ⟨rc.2, List.mem_range.mpr h2, rfl⟩⟩

lemma findWordOccurrences_pos (dirs : List (ℤ × ℤ)) (gridSize : ℕ) (word : String)
    (g : Grid) (rc : ℕ × ℕ) (hrc : rc ∈ cellList gridSize) (dd : ℤ × ℤ)
    (hd : dd ∈ dirs)
    (hocc : occursAt (splitGraphemes word) g gridSize (rc.1 : ℤ) (rc.2 : ℤ)
      dd.1 dd.2 = true) :
    1 ≤ findWordOccurrences dirs gridSize word g := by
  unfold findWordOccurrences
  dsimp only
  have h1 : 0 < dirs.countP (fun d =>
      occursAt (splitGraphemes word) g gridSize (rc.1 : ℤ) (rc.2 : ℤ) d.1 d.2) :=
    List.countP_pos_iff.mpr ⟨dd, hd, hocc⟩
  have h2 : dirs.countP (fun d =>
      occursAt (splitGraphemes word) g gridSize (rc.1 : ℤ) (rc.2 : ℤ) d.1 d.2) ∈
      (cellList gridSize).map (fun rc => dirs.countP (fun d =>
        occursAt (splitGraphemes word) g gridSize (rc.1 : ℤ) (rc.2 : ℤ) d.1 d.2)) :=
    List.mem_map_of_mem _ hrc
  have h3 := List.single_le_sum (l := (cellList gridSize).map (fun rc =>
      dirs.countP (fun d =>
        occursAt (splitGraphemes word) g gridSize (rc.1 : ℤ) (rc.2 : ℤ) d.1 d.2)))
    (fun x _ => Nat.zero_le x) _ h2
  omega

lemma getD_reverse {l : List α} {i : ℕ} (h : i < l.length) (dflt : α) :
    l.reverse.getD (l.length - 1 - i) dflt = l.getD i dflt := by
  have h1 : l.length - 1 - i < l.reverse.length := by
    rw [List.length_reverse]
    omega
  rw [List.getD_eq_getElem?_getD, List.getD_eq_getElem?_getD,
    List.getElem?_eq_getElem h1, List.getElem?_eq_getElem h]
  simp only [Option.getD_some]
  rw [List.getElem_reverse]
  simp only [show l.length - 1 - (l.length - 1 - i) = i from by omega]

lemma getDirections_vec : ∀ d ∈ getDirections true,
    (d.dRow, d.dCol) ∈ allScanDirections ∧
      (-d.dRow, -d.dCol) ∈ allScanDirections := by
  decide

lemma placedOK_occurrence {g : Grid} {gridSize : ℕ} (hdims : GridDims g gridSize)
    {wp : WordPosition} (h : PlacedOK g wp) :
    1 ≤ findWordOccurrences allScanDirections gridSize wp.word g := by
  obtain ⟨d, hd, row, col, hpos, hlen, hcells⟩ := h
  have hvec := getDirections_vec d hd
  cases hbd : d.isBackward
  · have hwc : wordCharsOf wp.word d = splitGraphemes wp.word := by
      simp [wordCharsOf, hbd]
    rw [hwc] at hcells hlen
    have h0 := hcells 0 hlen
    have hb0 : inBounds g row col := by simpa using h0.1
    obtain ⟨e1, e2, e3, e4⟩ := hb0
    rw [hdims.1] at e2 e4
    have hlast := hcells ((splitGraphemes wp.word).length - 1) (by omega)
    have hcast : (((splitGraphemes wp.word).length - 1 : ℕ) : ℤ) =
        ((splitGraphemes wp.word).length : ℤ) - 1 := by omega
    have hblast := hlast.1
    rw [hcast] at hblast
    obtain ⟨f1, f2, f3, f4⟩ := hblast
    rw [hdims.1] at f2 f4
    have hocc : occursAt (splitGraphemes wp.word) g gridSize row col d.dRow d.dCol =
        true := by
      unfold occursAt
      dsimp only
      rw [if_neg ?_]
      · rw [List.all_eq_true]
        intro i hi
        rw [List.mem_range] at hi
        rw [beq_iff_eq]
        exact (hcells i hi).2.1
      · intro hcon
        rcases hcon with hx | hx | hx | hx <;> linarith
    apply findWordOccurrences_pos allScanDirections gridSize wp.word g
      (row.toNat, col.toNat) ?_ (d.dRow, d.dCol) hvec.1 ?_
    · rw [mem_cellList]
      constructor <;> (dsimp only; omega)
    · dsimp only
      rw [Int.toNat_of_nonneg e1, Int.toNat_of_nonneg e3]
      exact hocc
  · have hwc : wordCharsOf wp.word d = (splitGraphemes wp.word).reverse := by
      simp [wordCharsOf, hbd]
    rw [hwc] at hcells hlen
    rw [List.length_reverse] at hlen
    have hn := hlen
    have h0 := hcells 0 (by rw [List.length_reverse]; omega)
    have hb0 : inBounds g row col := by simpa using h0.1
    obtain ⟨e1, e2, e3, e4⟩ := hb0
    rw [hdims.1] at e2 e4
    have hlast := hcells ((splitGraphemes wp.word).length - 1)
      (by rw [List.length_reverse]; omega)
    have hcast : (((splitGraphemes wp.word).length - 1 : ℕ) : ℤ) =
        ((splitGraphemes wp.word).length : ℤ) - 1 := by omega
    have hblast := hlast.1
    rw [hcast] at hblast
    obtain ⟨f1, f2, f3, f4⟩ := hblast
    rw [hdims.1] at f2 f4
    have hocc : occursAt (splitGraphemes wp.word) g gridSize
        (row + d.dRow * (((splitGraphemes wp.word).length : ℤ) - 1))
        (col + d.dCol * (((splitGraphemes wp.word).length : ℤ) - 1))
        (-d.dRow) (-d.dCol) = true := by
      unfold occursAt
      dsimp only
      rw [if_neg ?_]
      · rw [List.all_eq_true]
        intro i hi
        rw [List.mem_range] at hi
        rw [beq_iff_eq]
        have hj : (splitGraphemes wp.word).length - 1 - i <
            ((splitGraphemes wp.word).reverse).length := by
          rw [List.length_reverse]
          omega
        have hc := (hcells ((splitGraphemes wp.word).length - 1 - i) hj).2.1
        have hcast2 : (((splitGraphemes wp.word).length - 1 - i : ℕ) : ℤ) =
            ((splitGraphemes wp.word).length : ℤ) - 1 - (i : ℤ) := by omega
        rw [hcast2] at hc
        have hcoord1 : row + d.dRow * (((splitGraphemes wp.word).length : ℤ) - 1) +
            -d.dRow * (i : ℤ) =
            row + d.dRow * (((splitGraphemes wp.word).length : ℤ) - 1 - (i : ℤ)) := by
          ring
        have hcoord2 : col + d.dCol * (((splitGraphemes wp.word).length : ℤ) - 1) +
            -d.dCol * (i : ℤ) =
            col + d.dCol * (((splitGraphemes wp.word).length : ℤ) - 1 - (i : ℤ)) := by
          ring
        rw [hcoord1, hcoord2, hc]
        exact getD_reverse hi ""
      · have hend1 : row + d.dRow * (((splitGraphemes wp.word).length : ℤ) - 1) +
            -d.dRow * (((splitGraphemes wp.word).length : ℤ) - 1) = row := by ring
        have hend2 : col + d.dCol * (((splitGraphemes wp.word).length : ℤ) - 1) +
            -d.dCol * (((splitGraphemes wp.word).length : ℤ) - 1) = col := by ring
        rw [hend1, hend2]
        intro hcon
        rcases hcon with hx | hx | hx | hx <;> linarith
    apply findWordOccurrences_pos allScanDirections gridSize wp.word g
      ((row + d.dRow * (((splitGraphemes wp.word).length : ℤ) - 1)).toNat,
        (col + d.dCol * (((splitGraphemes wp.word).length : ℤ) - 1)).toNat)
      ?_ (-d.dRow, -d.dCol) hvec.2 ?_
    · rw [mem_cellList]
      constructor <;> (dsimp only; omega)
    · dsimp only
      rw [Int.toNat_of_nonneg f1, Int.toNat_of_nonneg f3]
      exact hocc

/-- C1 counterexample: a valid `generatePuzzle` result (isValid = true)
in which the accepted word `AA` occurs 12 times across the full
8-direction scan space.  `generatePuzzle` performs no occurrence
validation at all: placing `AA` on a 2x2 grid and filling the remaining
cells (the fill distribution contains only `A`) yields the all-`A` grid
with isValid = true. -/
theorem claim_C1_counterexample :
    (generatePuzzle idShuffle ["AA"] 2 false 0 10 (constS (mkRat 1 2)) 0).map
        (fun rk => (rk.1.isValid, findWordOccurrences allScanDirections 2 "AA" rk.1.grid)) =
      .ok (true, 12) ∧
    processWords ["AA"] 2 = ["AA"] ∧ (12 : ℕ) ≠ 1 :=
  ⟨by decide, by decide, by decide⟩

/-- C1 amended: a valid result guarantees every accepted word occurs AT
LEAST once in the final grid when occurrences are counted along every
direction of the full 8-direction space (each recorded placement still
reads back, forward placements along their ray and backward placements
along the opposite ray); the exactly-once guarantee does not hold, since
this variant of the engine performs no occurrence re-scan and fill
letters can create further occurrences. -/
theorem claim_C1_accepted_words_occur (shuffle : Shuffle)
    (hsub : ∀ (l : List Direction) (rr : RStream) (kk : ℕ), (shuffle l rr kk).1 ⊆ l)
    (words : List String) (gridSize : ℕ) (ab : Bool) (a m : ℕ) (r : RStream) (k : ℕ)
    (res : PuzzleResult) (k2 : ℕ)
    (h : generatePuzzle shuffle words gridSize ab a m r k = .ok (res, k2))
    (hv : res.isValid = true) :
    ∀ w ∈ processWords words gridSize,
      1 ≤ findWordOccurrences allScanDirections gridSize w res.grid := by
  obtain ⟨hdims, hplaced, hmap⟩ :=
    generatePuzzle_valid shuffle hsub words gridSize ab a m r k res k2 h hv
  intro w hw
  rw [← hmap, List.mem_map] at hw
  obtain ⟨wp, hwp, rfl⟩ := hw
  exact placedOK_occurrence hdims (hplaced wp hwp)

/-- C1 witness: at-least-once occurrence applied to the concrete valid
run for the accepted word `AB` on a 2x2 grid. -/
theorem claim_C1_witness :
    ((∀ (l : List Direction) (rr : RStream) (kk : ℕ), (idShuffle l rr kk).1 ⊆ l) ∧
      generatePuzzle idShuffle ["AB"] 2 false 0 10 (constS (mkRat 1 2)) 0 =
        .ok (⟨[["A", "A"], ["A", "B"]], [⟨"AB", [⟨1, 0⟩, ⟨1, 1⟩]⟩], true⟩, 3) ∧
      (PuzzleResult.mk [["A", "A"], ["A", "B"]] [⟨"AB", [⟨1, 0⟩, ⟨1, 1⟩]⟩]
        true).isValid = true) ∧
    (∀ w ∈ processWords ["AB"] 2,
      1 ≤ findWordOccurrences allScanDirections 2 w
        (PuzzleResult.mk [["A", "A"], ["A", "B"]] [⟨"AB", [⟨1, 0⟩, ⟨1, 1⟩]⟩]
          true).grid) :=
  ⟨⟨fun l _ _ => fun x hx => hx, by decide, by decide⟩,
    claim_C1_accepted_words_occur idShuffle (fun l _ _ => fun x hx => hx) ["AB"] 2
      false 0 10 (constS (mkRat 1 2)) 0
      ⟨[["A", "A"], ["A", "B"]], [⟨"AB", [⟨1, 0⟩, ⟨1, 1⟩]⟩], true⟩ 3 (by decide)
      (by decide)⟩

end WordSearch
